import Mathlib

/-!
# Verification of `advanced-vector` (`vector.h`)

A shallow embedding of `RawMemory<T>` and `Vector<T>`.

* The free store is an explicit `Heap T`: a supply of block addresses, the
  slot count of every allocated block, the content of every slot (`none`: no
  live object) and a sticky `fault` bit.  The bit is raised whenever an element
  operation is applied outside its precondition in C++: an access outside an
  allocated block, reading, assigning or destroying a slot that holds no live
  object, constructing over a live object, releasing a block twice.  A faulting
  step leaves the memory as it is; once `fault` is set the memory content has
  no meaning any more, but the scalar fields of the objects are still the ones
  the code computes.
* A pointer `T*` is a block address with a slot offset; `nullptr` is block 0.
* Objects (`RawMemory`, `Vector`) are records of their C++ fields; every
  member function takes the heap and the object and returns the new heap and
  the new object.
* `size_t` has 64 bits.  The arithmetic on an argument of the caller is taken
  modulo `2^64`: the product `n * sizeof(T)` in `RawMemory::Allocate` (a request
  whose byte count wraps is served with the block of the wrapped byte count,
  which has fewer than `n` slots; `Fits T n` says that the byte count of `n`
  slots does not wrap) and the sum `size_ + new_size` in `Resize`.  Sizes and
  capacities themselves are `Nat`: an array that exists occupies fewer than
  `2^63` bytes, so `size_ * 2` does not wrap.
* The members are followed on the path where `operator new` returns the block
  it is asked for.  Where it throws `std::bad_alloc` instead, the real call
  ends there, before it has changed anything (every member allocates first);
  the model does not follow that path.
* Element operations do not throw, except in the `_try` variants of the
  reallocating members, where a countdown makes a chosen construction or copy
  construction throw.
* The `assert`s of the source are diagnostics only and are not part of the
  embedding.
-/

namespace AdvancedVector

/-! ## Element type -/

/-- What the container uses of its element type `T`: value-initialisation
`T()`, the state a moved-from object is left in, the two traits `CopyOrMove`
inspects, and `sizeof(T)`, a positive `size_t` value. -/
class Element (T : Type) where
  value_init : T
  moved_from : T → T
  nothrow_move_constructible : Bool
  copy_constructible : Bool
  sizeof : Nat
  sizeof_pos : 0 < sizeof
  sizeof_lt : sizeof < 2 ^ 64

/-- Elements like `int` (4 bytes): moving is copying. -/
instance instElementNat : Element Nat where
  value_init := 0
  moved_from := fun x => x
  nothrow_move_constructible := true
  copy_constructible := true
  sizeof := 4
  sizeof_pos := by decide
  sizeof_lt := by decide

/-! ## Pointers and the free store -/

/-- A `T*`: the block it points into and the slot offset inside the block. -/
structure Ptr where
  block : Nat
  off : Nat
deriving DecidableEq

/-- The null pointer. -/
def nullptr : Ptr := ⟨0, 0⟩

/-- Pointer arithmetic `p + n`. -/
def Ptr.add (p : Ptr) (n : Nat) : Ptr := ⟨p.block, p.off + n⟩

/-- Pointer arithmetic `p - n`. -/
def Ptr.sub (p : Ptr) (n : Nat) : Ptr := ⟨p.block, p.off - n⟩

/-- Pointer difference `p - q`; C++ defines it for two pointers into one block
only, which is the contract of the iterator arguments of `Emplace` and
`Erase`. -/
def Ptr.diff (p q : Ptr) : Nat := p.off - q.off

/-- The free store. -/
structure Heap (T : Type) where
  /-- the last block address handed out; addresses are never reused -/
  next : Nat
  /-- slot count of every allocated block -/
  extent : Nat → Option Nat
  /-- content of a slot of a block; `none`: no live object -/
  slot : Nat → Nat → Option T
  /-- raised by an operation applied outside its precondition -/
  fault : Bool

/-- The free store before any allocation. -/
def Heap.empty (T : Type) : Heap T :=
  { next := 0, extent := fun _ => none, slot := fun _ _ => none, fault := false }

variable {T : Type}

/-- Whether `p` points at a slot of an allocated block. -/
def Heap.inside (h : Heap T) (p : Ptr) : Bool :=
  match h.extent p.block with
  | some n => decide (p.off < n)
  | none => false

/-- The live object `p` points at, if any: `*p` as an rvalue. -/
def Heap.read (h : Heap T) (p : Ptr) : Option T :=
  if h.inside p then h.slot p.block p.off else none

/-- Store `c` in the slot `p` points at. -/
def Heap.write (h : Heap T) (p : Ptr) (c : Option T) : Heap T :=
  { h with slot := fun b i => if b = p.block ∧ i = p.off then c else h.slot b i }

/-- Record undefined behaviour. -/
def Heap.raise (h : Heap T) : Heap T := { h with fault := true }

/-- Placement new `new (p) T(x)`: needs a slot with no live object. -/
def construct_at (h : Heap T) (p : Ptr) (x : T) : Heap T :=
  if h.inside p then
    match h.slot p.block p.off with
    | none => h.write p (some x)
    | some _ => h.raise
  else h.raise

/-- The call `std::destroy_at(p)`: needs a live object. -/
def destroy_at (h : Heap T) (p : Ptr) : Heap T :=
  match h.read p with
  | some _ => h.write p none
  | none => h.raise

/-- Copy construction `new (to) T(*src)`. -/
def copy_construct (h : Heap T) (src dst : Ptr) : Heap T :=
  match h.read src with
  | some x => construct_at h dst x
  | none => h.raise

/-- Move construction `new (to) T(std::move(*src))`: the source stays alive in
its moved-from state. -/
def move_construct [Element T] (h : Heap T) (src dst : Ptr) : Heap T :=
  match h.read src with
  | some x => (construct_at h dst x).write src (some (Element.moved_from x))
  | none => h.raise

/-- Copy assignment `*to = *src` between live objects. -/
def copy_assign (h : Heap T) (src dst : Ptr) : Heap T :=
  match h.read src, h.read dst with
  | some x, some _ => h.write dst (some x)
  | _, _ => h.raise

/-- Move assignment `*to = std::move(*src)` between live objects. -/
def move_assign [Element T] (h : Heap T) (src dst : Ptr) : Heap T :=
  match h.read src, h.read dst with
  | some x, some _ => (h.write dst (some x)).write src (some (Element.moved_from x))
  | _, _ => h.raise

/-- Assignment `*to = std::move(x)` from a temporary `x`. -/
def assign_value (h : Heap T) (dst : Ptr) (x : T) : Heap T :=
  match h.read dst with
  | some _ => h.write dst (some x)
  | none => h.raise

/-! ## The `<memory>` and `<algorithm>` loops the container calls -/

/-- The call `std::destroy_n(first, n)`. -/
def destroy_n (h : Heap T) (first : Ptr) : Nat → Heap T
  | 0 => h
  | n + 1 => destroy_n (destroy_at h first) (first.add 1) n

/-- The call `std::uninitialized_value_construct_n(first, n)`. -/
def uninitialized_value_construct_n [Element T] (h : Heap T) (first : Ptr) : Nat → Heap T
  | 0 => h
  | n + 1 =>
    uninitialized_value_construct_n (construct_at h first Element.value_init) (first.add 1) n

/-- The call `std::uninitialized_copy_n(first, n, d_first)`. -/
def uninitialized_copy_n (h : Heap T) (first : Ptr) (n : Nat) (d_first : Ptr) : Heap T :=
  match n with
  | 0 => h
  | n + 1 => uninitialized_copy_n (copy_construct h first d_first) (first.add 1) n (d_first.add 1)

/-- The call `std::uninitialized_move_n(first, n, d_first)`. -/
def uninitialized_move_n [Element T] (h : Heap T) (first : Ptr) (n : Nat) (d_first : Ptr) :
    Heap T :=
  match n with
  | 0 => h
  | n + 1 => uninitialized_move_n (move_construct h first d_first) (first.add 1) n (d_first.add 1)

/-- The call `std::move(first, first + n, d_first)`: move-assigns front to back. -/
def move_range [Element T] (h : Heap T) (first : Ptr) (n : Nat) (d_first : Ptr) : Heap T :=
  match n with
  | 0 => h
  | n + 1 => move_range (move_assign h first d_first) (first.add 1) n (d_first.add 1)

/-- The call `std::move_backward(last - n, last, d_last)`: move-assigns back to
front, `*(--d_last) = std::move(*(--last))`. -/
def move_backward [Element T] (h : Heap T) (last : Ptr) (n : Nat) (d_last : Ptr) : Heap T :=
  match n with
  | 0 => h
  | n + 1 => move_backward (move_assign h (last.sub 1) (d_last.sub 1)) (last.sub 1) n (d_last.sub 1)

/-! ## `RawMemory<T>` -/

/-- Fields of `RawMemory<T>`. -/
structure RawMemory where
  buffer_ : Ptr := nullptr
  capacity_ : Nat := 0
deriving DecidableEq

/-- The call `operator new(bytes)` for elements of type `T`, on the path where
it returns: a fresh block of `bytes` bytes, which has room for
`bytes / sizeof(T)` objects (none at all for `bytes == 0`, where the pointer is
still not null). -/
def operator_new [Element T] (h : Heap T) (bytes : Nat) : Heap T × Ptr :=
  ({ h with
      next := h.next + 1
      extent := fun b => if b = h.next + 1 then some (bytes / Element.sizeof T) else h.extent b
      slot := fun b i => if b = h.next + 1 then none else h.slot b i },
    ⟨h.next + 1, 0⟩)

/-- The static `RawMemory::Allocate(n)`: `operator new(n * sizeof(T))`, the
product being computed in `size_t`, or `nullptr` for `n == 0`. -/
def RawMemory.Allocate [Element T] (h : Heap T) (n : Nat) : Heap T × Ptr :=
  if n ≠ 0 then operator_new h (n * Element.sizeof T % 2 ^ 64)
  else (h, nullptr)

/-- The static `RawMemory::Deallocate(buf)`: `operator delete`, which runs no
destructor and ignores `nullptr`. -/
def RawMemory.Deallocate (h : Heap T) (buf : Ptr) : Heap T :=
  if buf = nullptr then h
  else if (h.extent buf.block).isSome ∧ buf.off = 0 then
    { h with extent := fun b => if b = buf.block then none else h.extent b }
  else h.raise

/-- The constructor `RawMemory(size_t capacity)`. -/
def RawMemory.create [Element T] (h : Heap T) (capacity : Nat) : Heap T × RawMemory :=
  let r := RawMemory.Allocate h capacity
  (r.1, { buffer_ := r.2, capacity_ := capacity })

/-- The destructor `~RawMemory()`. -/
def RawMemory.destroy (h : Heap T) (m : RawMemory) : Heap T :=
  RawMemory.Deallocate h m.buffer_

/-- The member `RawMemory::Swap`: returns the two objects after the exchange. -/
def RawMemory.Swap (m other : RawMemory) : RawMemory × RawMemory :=
  ({ buffer_ := other.buffer_, capacity_ := other.capacity_ },
   { buffer_ := m.buffer_, capacity_ := m.capacity_ })

/-- The move constructor `RawMemory(RawMemory&& other)`: the new object starts
from the default member values and swaps with `other`; returns the new object
and `other`. -/
def RawMemory.move_ctor (other : RawMemory) : RawMemory × RawMemory :=
  RawMemory.Swap {} other

/-- The member `RawMemory::GetAddress`. -/
def RawMemory.GetAddress (m : RawMemory) : Ptr := m.buffer_

/-- The member `RawMemory::Capacity`. -/
def RawMemory.Capacity (m : RawMemory) : Nat := m.capacity_

/-- The member `RawMemory::operator+`. -/
def RawMemory.plus (m : RawMemory) (offset : Nat) : Ptr := m.buffer_.add offset

/-! ## `Vector<T>` -/

/-- Fields of `Vector<T>`. -/
structure Vector where
  data_ : RawMemory := {}
  size_ : Nat := 0
deriving DecidableEq

/-- The member `Vector::Size`. -/
def Vector.Size (v : Vector) : Nat := v.size_

/-- The member `Vector::Capacity`. -/
def Vector.Capacity (v : Vector) : Nat := v.data_.Capacity

/-- The member `Vector::begin`. -/
def Vector.begin (v : Vector) : Ptr := v.data_.GetAddress

/-- The member `Vector::end`. -/
def Vector.end (v : Vector) : Ptr := v.data_.plus v.size_

/-- The member `Vector::operator[]`: the object at `index`, if one is alive there. -/
def Vector.at (h : Heap T) (v : Vector) (index : Nat) : Option T :=
  h.read (v.data_.plus index)

/-- The private `Vector::CopyOrMove(T* from, size_t amount, T* to)`. -/
def Vector.CopyOrMove [Element T] (h : Heap T) (src : Ptr) (amount : Nat) (dst : Ptr) : Heap T :=
  if Element.nothrow_move_constructible T || !Element.copy_constructible T then
    uninitialized_move_n h src amount dst
  else
    uninitialized_copy_n h src amount dst

/-- The private `Vector::CopyOrMove(const T* from, size_t amount, T* to)`. -/
def Vector.CopyOrMove_const (h : Heap T) (src : Ptr) (amount : Nat) (dst : Ptr) : Heap T :=
  uninitialized_copy_n h src amount dst

/-- The default constructor `Vector()`. -/
def Vector.ctor_default : Vector := {}

/-- The constructor `Vector(size_t size)`. -/
def Vector.ctor_size [Element T] (h : Heap T) (size : Nat) : Heap T × Vector :=
  let r := RawMemory.create h size
  let h1 := uninitialized_value_construct_n r.1 r.2.GetAddress size
  (h1, { data_ := r.2, size_ := size })

/-- The copy constructor `Vector(const Vector& other)`. -/
def Vector.ctor_copy [Element T] (h : Heap T) (other : Vector) : Heap T × Vector :=
  let r := RawMemory.create h other.size_
  let h1 := Vector.CopyOrMove_const r.1 other.data_.GetAddress other.size_ r.2.GetAddress
  (h1, { data_ := r.2, size_ := other.size_ })

/-- The member `Vector::Reserve`. -/
def Vector.Reserve [Element T] (h : Heap T) (v : Vector) (new_capacity : Nat) : Heap T × Vector :=
  if new_capacity ≤ v.Capacity then (h, v)
  else
    let r := RawMemory.create h new_capacity
    let h1 := Vector.CopyOrMove r.1 v.begin v.size_ r.2.GetAddress
    let s := RawMemory.Swap v.data_ r.2
    let h2 := destroy_n h1 s.2.GetAddress v.size_
    (RawMemory.destroy h2 s.2, { data_ := s.1, size_ := v.size_ })

/-- The member `Vector::Resize`; the sum `size_ + new_size` of its test is
computed in `size_t`. -/
def Vector.Resize [Element T] (h : Heap T) (v : Vector) (new_size : Nat) : Heap T × Vector :=
  if new_size < v.size_ then
    let h1 := destroy_n h (v.data_.plus new_size) (v.size_ - new_size)
    (h1, { v with size_ := new_size })
  else
    let r :=
      if (v.size_ + new_size) % 2 ^ 64 > v.data_.Capacity then
        Vector.Reserve h v (if v.size_ = 0 then new_size else v.size_ * 2)
      else (h, v)
    let h1 := uninitialized_value_construct_n r.1 (r.2.data_.GetAddress.add r.2.size_)
      (new_size - r.2.size_)
    (h1, { r.2 with size_ := new_size })

/-- The member `Vector::EmplaceBack(args...)`, with `x` the value `T(args...)`
constructs; the third component is the returned reference. -/
def Vector.EmplaceBack [Element T] (h : Heap T) (v : Vector) (x : T) : Heap T × Vector × Ptr :=
  let r : Heap T × Vector :=
    if v.Capacity = v.size_ then
      let m := RawMemory.create h (if v.size_ = 0 then 1 else v.size_ * 2)
      let h1 := construct_at m.1 (m.2.plus v.size_) x
      let h2 := Vector.CopyOrMove h1 v.data_.GetAddress v.size_ m.2.GetAddress
      let s := RawMemory.Swap v.data_ m.2
      let h3 := destroy_n h2 s.2.GetAddress v.size_
      (RawMemory.destroy h3 s.2, { data_ := s.1, size_ := v.size_ })
    else
      (construct_at h (v.data_.plus v.size_) x, v)
  let w : Vector := { r.2 with size_ := r.2.size_ + 1 }
  (r.1, w, w.data_.plus (w.size_ - 1))

/-- The member `Vector::PushBack` (both overloads forward to `EmplaceBack`). -/
def Vector.PushBack [Element T] (h : Heap T) (v : Vector) (value : T) : Heap T × Vector :=
  let r := Vector.EmplaceBack h v value
  (r.1, r.2.1)

/-- The member `Vector::Emplace(pos, args...)`, with `x` the value `T(args...)`
constructs; the third component is the returned iterator. -/
def Vector.Emplace [Element T] (h : Heap T) (v : Vector) (pos : Ptr) (x : T) :
    Heap T × Vector × Ptr :=
  if pos = v.end then
    let r := Vector.EmplaceBack h v x
    (r.1, r.2.1, (r.2.1.data_.plus r.2.1.size_).sub 1)
  else
    let dist := pos.diff v.begin
    let r : Heap T × Vector :=
      if v.Capacity > v.size_ then
        let copy_value := x
        let h1 := move_construct h (v.data_.plus (v.size_ - 1)) (v.data_.plus v.size_)
        let h2 := move_backward h1 (v.end.sub 1) ((v.end.sub 1).diff (v.data_.plus dist)) v.end
        (assign_value h2 (v.data_.plus dist) copy_value, v)
      else
        let m := RawMemory.create h (if v.size_ = 0 then 1 else v.size_ * 2)
        let h1 := construct_at m.1 (m.2.plus dist) x
        let second_dist := v.end.diff pos
        let h2 := Vector.CopyOrMove h1 v.data_.GetAddress dist m.2.GetAddress
        let h3 := Vector.CopyOrMove h2 (v.data_.plus dist) second_dist ((m.2.plus dist).add 1)
        let s := RawMemory.Swap v.data_ m.2
        let h4 := destroy_n h3 s.2.GetAddress v.size_
        (RawMemory.destroy h4 s.2, { data_ := s.1, size_ := v.size_ })
    let w : Vector := { r.2 with size_ := r.2.size_ + 1 }
    (r.1, w, w.data_.plus dist)

/-- The member `Vector::Insert` (both overloads forward to `Emplace`). -/
def Vector.Insert [Element T] (h : Heap T) (v : Vector) (pos : Ptr) (value : T) :
    Heap T × Vector × Ptr :=
  Vector.Emplace h v pos value

/-- The member `Vector::PopBack`. -/
def Vector.PopBack (h : Heap T) (v : Vector) : Heap T × Vector :=
  (destroy_at h (v.end.sub 1), { v with size_ := v.size_ - 1 })

/-- The member `Vector::Erase(pos)`; the third component is the returned
iterator. -/
def Vector.Erase [Element T] (h : Heap T) (v : Vector) (pos : Ptr) : Heap T × Vector × Ptr :=
  let dist := pos.diff v.begin
  let h1 := move_range h ((v.data_.plus dist).add 1)
    ((v.data_.plus v.size_).diff ((v.data_.plus dist).add 1)) (v.data_.plus dist)
  let r := Vector.PopBack h1 v
  (r.1, r.2, r.2.data_.plus dist)

/-- The move assignment `RawMemory::operator=(RawMemory&& other)`: returns the
assigned object and `other`. -/
def RawMemory.move_assign (m other : RawMemory) : RawMemory × RawMemory :=
  ({ buffer_ := other.buffer_, capacity_ := other.capacity_ },
   { buffer_ := m.buffer_, capacity_ := m.capacity_ })

/-- The member `Vector::Swap`: returns the two objects after the exchange. -/
def Vector.Swap (v other : Vector) : Vector × Vector :=
  let s := RawMemory.Swap v.data_ other.data_
  ({ data_ := s.1, size_ := other.size_ }, { data_ := s.2, size_ := v.size_ })

/-- The destructor `~Vector()`: destroys the live elements; the destructor of
the member `data_` then releases the block. -/
def Vector.destroy (h : Heap T) (v : Vector) : Heap T :=
  RawMemory.destroy (destroy_n h v.data_.GetAddress v.size_) v.data_

/-- The move constructor `Vector(Vector&& other)`: returns the new object and
`other`; it touches no element, so the heap is not involved. -/
def Vector.ctor_move (other : Vector) : Vector × Vector :=
  let m := RawMemory.move_ctor other.data_
  ({ data_ := m.1, size_ := other.size_ }, { data_ := m.2, size_ := 0 })

/-- The right-hand side of an assignment `a = rhs`: the object `a` itself
(`this == &rhs`) or another object. -/
inductive Operand where
  | self
  | other (rhs : Vector)

/-- The loop `for (i = 0; i < n; ++i) *(data_ + i) = *(rhs.data_ + i)` of the
copy assignment, with `src` and `dst` the two current positions. -/
def assign_loop (h : Heap T) (src dst : Ptr) : Nat → Heap T
  | 0 => h
  | n + 1 => assign_loop (copy_assign h src dst) (src.add 1) (dst.add 1) n

/-- The copy assignment `Vector::operator=(const Vector& rhs)`. -/
def Vector.assign_copy [Element T] (h : Heap T) (v : Vector) : Operand → Heap T × Vector
  | Operand.self => (h, v)
  | Operand.other rhs =>
    if rhs.size_ > v.Capacity then
      let rhs_copy := Vector.ctor_copy h rhs
      let s := Vector.Swap v rhs_copy.2
      (Vector.destroy rhs_copy.1 s.2, s.1)
    else
      let h1 :=
        if rhs.size_ < v.size_ then
          destroy_n (assign_loop h (rhs.data_.plus 0) (v.data_.plus 0) rhs.size_)
            (v.data_.plus rhs.size_) (v.size_ - rhs.size_)
        else
          uninitialized_copy_n (assign_loop h (rhs.data_.plus 0) (v.data_.plus 0) v.size_)
            (rhs.data_.plus v.size_) (rhs.size_ - v.size_) (v.data_.plus v.size_)
      (h1, { v with size_ := rhs.size_ })

/-- The move assignment `Vector::operator=(Vector&& rhs)`: returns the heap, the
assigned object and `rhs`. -/
def Vector.assign_move (h : Heap T) (v : Vector) : Operand → Heap T × Vector × Vector
  | Operand.self => (h, v, v)
  | Operand.other rhs =>
    if rhs.size_ > v.Capacity then
      let m := Vector.ctor_move rhs
      let s := Vector.Swap v m.1
      (Vector.destroy h s.2, s.1, m.2)
    else (h, v, rhs)

/-! ## Element constructors that throw

The definitions above are the behaviour when no element operation throws.  The
definitions of this section add the exceptions of the element type to the
reallocating members: a construction from arguments `T(args...)` and a copy
construction may throw, governed by a countdown; move construction and
destruction do not throw.  A throwing constructor has constructed nothing.
Stack unwinding is spelled out: the destructor of the local `new_data` runs on
every exit. -/

/-- The countdown of an instrumented element type: `some k` lets the next `k`
fallible constructor calls succeed and makes the call after them throw; `none`
never throws.  `tick` is one fallible call: `none` when it throws, otherwise the
countdown that remains. -/
def tick : Option Nat → Option (Option Nat)
  | none => some none
  | some 0 => none
  | some (k + 1) => some (some k)

/-- How a call that may throw ends: the heap, the countdown, and whether an
exception leaves the call. -/
structure Exit (T : Type) where
  heap : Heap T
  fuse : Option Nat
  thrown : Bool

/-- The call `std::uninitialized_copy_n(first, n, d_first)` with a copy
constructor that may throw; `k` objects are built already and `n` remain.  When
a copy throws, the `k` objects built so far are destroyed and the exception is
rethrown. -/
def uninitialized_copy_n_try (first d_first : Ptr) : Option Nat → Heap T → Nat → Nat → Exit T
  | f, h, _, 0 => ⟨h, f, false⟩
  | f, h, k, n + 1 =>
    match tick f with
    | none => ⟨destroy_n h d_first k, f, true⟩
    | some g =>
      uninitialized_copy_n_try first d_first g
        (copy_construct h (first.add k) (d_first.add k)) (k + 1) n

/-- The private `Vector::CopyOrMove(T* from, size_t amount, T* to)` with a copy
constructor that may throw. -/
def Vector.CopyOrMove_try [Element T] (f : Option Nat) (h : Heap T) (src : Ptr) (amount : Nat)
    (dst : Ptr) : Exit T :=
  if Element.nothrow_move_constructible T || !Element.copy_constructible T then
    ⟨uninitialized_move_n h src amount dst, f, false⟩
  else
    uninitialized_copy_n_try src dst f h 0 amount

/-- The member `Vector::EmplaceBack(args...)` with element constructors that
may throw, with `x` the value `T(args...)` constructs when it does not throw:
returns how the call ends and the object.  The source has no handler here, so
an exception from `CopyOrMove` only unwinds `new_data`. -/
def Vector.EmplaceBack_try [Element T] (f : Option Nat) (h : Heap T) (v : Vector) (x : T) :
    Exit T × Vector :=
  if v.Capacity = v.size_ then
    let m := RawMemory.create h (if v.size_ = 0 then 1 else v.size_ * 2)
    match tick f with
    | none => (⟨RawMemory.destroy m.1 m.2, f, true⟩, v)
    | some g =>
      let h1 := construct_at m.1 (m.2.plus v.size_) x
      let e := Vector.CopyOrMove_try g h1 v.data_.GetAddress v.size_ m.2.GetAddress
      if e.thrown then
        (⟨RawMemory.destroy e.heap m.2, e.fuse, true⟩, v)
      else
        let s := RawMemory.Swap v.data_ m.2
        let h3 := destroy_n e.heap s.2.GetAddress v.size_
        (⟨RawMemory.destroy h3 s.2, e.fuse, false⟩, { data_ := s.1, size_ := v.size_ + 1 })
  else
    match tick f with
    | none => (⟨h, f, true⟩, v)
    | some g =>
      (⟨construct_at h (v.data_.plus v.size_) x, g, false⟩, { v with size_ := v.size_ + 1 })

/-- The member `Vector::Emplace(pos, args...)` with element constructors that
may throw, with `x` the value `T(args...)` constructs when it does not throw:
returns how the call ends and the object.  The reallocation branch has the
`try`/`catch` of the source: the handler destroys the new element, and the
transferred prefix once `after_pos` is set, and rethrows. -/
def Vector.Emplace_try [Element T] (f : Option Nat) (h : Heap T) (v : Vector) (pos : Ptr)
    (x : T) : Exit T × Vector :=
  if pos = v.end then Vector.EmplaceBack_try f h v x
  else
    let dist := pos.diff v.begin
    if v.Capacity > v.size_ then
      match tick f with
      | none => (⟨h, f, true⟩, v)
      | some g =>
        let copy_value := x
        let h1 := move_construct h (v.data_.plus (v.size_ - 1)) (v.data_.plus v.size_)
        let h2 := move_backward h1 (v.end.sub 1) ((v.end.sub 1).diff (v.data_.plus dist)) v.end
        (⟨assign_value h2 (v.data_.plus dist) copy_value, g, false⟩,
          { v with size_ := v.size_ + 1 })
    else
      let m := RawMemory.create h (if v.size_ = 0 then 1 else v.size_ * 2)
      match tick f with
      | none => (⟨RawMemory.destroy m.1 m.2, f, true⟩, v)
      | some g =>
        let h1 := construct_at m.1 (m.2.plus dist) x
        let second_dist := v.end.diff pos
        let e1 := Vector.CopyOrMove_try g h1 v.data_.GetAddress dist m.2.GetAddress
        if e1.thrown then
          (⟨RawMemory.destroy (destroy_at e1.heap (m.2.plus dist)) m.2, e1.fuse, true⟩, v)
        else
          let e2 := Vector.CopyOrMove_try e1.fuse e1.heap (v.data_.plus dist) second_dist
            ((m.2.plus dist).add 1)
          if e2.thrown then
            (⟨RawMemory.destroy
                (destroy_n (destroy_at e2.heap (m.2.plus dist)) m.2.GetAddress dist) m.2,
              e2.fuse, true⟩, v)
          else
            let s := RawMemory.Swap v.data_ m.2
            let h4 := destroy_n e2.heap s.2.GetAddress v.size_
            (⟨RawMemory.destroy h4 s.2, e2.fuse, false⟩,
              { data_ := s.1, size_ := v.size_ + 1 })

/-- The elements read at indices `0 .. Size() - 1`. -/
def Vector.toList (h : Heap T) (v : Vector) : List (Option T) :=
  (List.range v.size_).map (Vector.at h v)

/-! ## Specification vocabulary -/

/-- The heap `h` with the slots `lo ≤ i < hi` of block `b` replaced by `g i`. -/
def Heap.patch (h : Heap T) (b lo hi : Nat) (g : Nat → Option T) : Heap T :=
  { h with slot := fun c i => if c = b ∧ lo ≤ i ∧ i < hi then g i else h.slot c i }

/-- The byte count `n * sizeof(T)` of a block of `n` slots is a `size_t` value:
the product in `RawMemory::Allocate(n)` does not wrap. -/
def Fits (T : Type) [Element T] (n : Nat) : Prop := n * Element.sizeof T < 2 ^ 64

instance Fits.decidable (T : Type) [Element T] (n : Nat) : Decidable (Fits T n) := by
  unfold Fits; infer_instance

/-- What a transfer by `CopyOrMove` leaves in the source object. -/
def transferred (T : Type) [Element T] : T → T :=
  if Element.nothrow_move_constructible T || !Element.copy_constructible T then
    Element.moved_from
  else id

/-- The number of copy-constructor calls `CopyOrMove` makes to transfer `n`
objects: none when it moves. -/
def copy_calls (T : Type) [Element T] (n : Nat) : Nat :=
  if Element.nothrow_move_constructible T || !Element.copy_constructible T then 0 else n

/-- The data invariant of `Vector<T>` together with its abstract value: no
undefined behaviour has happened, `v` holds the live objects `xs` in the slots
`0 .. size_ - 1` of a block of exactly `capacity_` slots that starts at
`buffer_`, the slots `size_ .. capacity_ - 1` hold no object, and the buffer
is null exactly when the capacity is 0. -/
def Models (h : Heap T) (v : Vector) (xs : List T) : Prop :=
  h.fault = false ∧
  v.size_ = xs.length ∧
  xs.length ≤ v.data_.capacity_ ∧
  v.data_.buffer_.off = 0 ∧
  v.data_.buffer_.block ≤ h.next ∧
  (v.data_.capacity_ = 0 → v.data_.buffer_.block = 0) ∧
  (v.data_.capacity_ ≠ 0 →
    v.data_.buffer_.block ≠ 0 ∧ h.extent v.data_.buffer_.block = some v.data_.capacity_) ∧
  ∀ i, i < v.data_.capacity_ → h.slot v.data_.buffer_.block i = xs[i]?

instance Models.decidable [DecidableEq T] (h : Heap T) (v : Vector) (xs : List T) :
    Decidable (Models h v xs) := by
  unfold Models; infer_instance

/-- The heap `h2` is `h1` except for the blocks `P` singles out: no block
address was taken back, and every other block has its extent and its slots
unchanged. -/
def Heap.Frame (P : Nat → Prop) (h1 h2 : Heap T) : Prop :=
  h1.next ≤ h2.next ∧ ∀ c, ¬ P c → h2.extent c = h1.extent c ∧ h2.slot c = h1.slot c

/-- The blocks a member call on an array with buffer block `b` may touch in a
heap whose last address is `n`: its own block and blocks allocated later
(block 0 is the null pointer and never holds anything). -/
def touched (b n : Nat) (c : Nat) : Prop := c = 0 ∨ c = b ∨ n < c

/-- Call `PushBack` with each value of the list in turn. -/
def Vector.pushAll [Element T] (h : Heap T) (v : Vector) : List T → Heap T × Vector
  | [] => (h, v)
  | x :: xs => Vector.pushAll (Vector.PushBack h v x).1 (Vector.PushBack h v x).2 xs

/-- The array `[1, 3, 4]` built by three `PushBack` calls on an empty `Vector`
(size 3, capacity 4). -/
def sample134 : Heap Nat × Vector :=
  Vector.pushAll (Heap.empty Nat) Vector.ctor_default [1, 3, 4]

/-- The array `[1, 2, 3, 4]` built by four `PushBack` calls on an empty
`Vector` (size 4, capacity 4). -/
def sample1234 : Heap Nat × Vector :=
  Vector.pushAll (Heap.empty Nat) Vector.ctor_default [1, 2, 3, 4]

/-- The array `Vector<Nat>(1)`: one value-initialised element, capacity 1. -/
def sampleSized1 : Heap Nat × Vector :=
  Vector.ctor_size (Heap.empty Nat) 1

/-- The heap of `sample134` with a second array `Vector<Nat>(1)` constructed in
it: the heap holds `sample134.2` = `[1, 3, 4]` and the new array `[0]`. -/
def sampleTwo : Heap Nat × Vector :=
  Vector.ctor_size sample134.1 1

/-- An element type whose copy constructor may throw and whose move constructor
is not `noexcept`: `CopyOrMove` transfers its objects by copy. -/
structure Tracked where
  id : Nat
deriving DecidableEq

instance instElementTracked : Element Tracked where
  value_init := ⟨0⟩
  moved_from := fun x => x
  nothrow_move_constructible := false
  copy_constructible := true
  sizeof := 4
  sizeof_pos := by decide
  sizeof_lt := by decide

/-- The full array `[Tracked 1, Tracked 2]` (size 2, capacity 2) built by two
`PushBack` calls on an empty `Vector`. -/
def sampleTracked : Heap Tracked × Vector :=
  Vector.pushAll (Heap.empty Tracked) Vector.ctor_default [⟨1⟩, ⟨2⟩]

end AdvancedVector

set_option linter.unusedTactic false
set_option linter.unreachableTactic false
set_option linter.unnecessarySeqFocus false
set_option linter.unusedVariables false

namespace AdvancedVector

variable {T : Type}

/-! ## The free store: basic facts -/

theorem Heap.ext_fields {h k : Heap T} (h1 : h.next = k.next) (h2 : h.extent = k.extent)
    (h3 : h.slot = k.slot) (h4 : h.fault = k.fault) : h = k := by
  cases h; cases k; simp_all

@[simp] theorem Heap.write_next (h : Heap T) (p : Ptr) (c : Option T) :
    (h.write p c).next = h.next := rfl

@[simp] theorem Heap.write_extent (h : Heap T) (p : Ptr) (c : Option T) :
    (h.write p c).extent = h.extent := rfl

@[simp] theorem Heap.write_fault (h : Heap T) (p : Ptr) (c : Option T) :
    (h.write p c).fault = h.fault := rfl

@[simp] theorem Heap.write_slot (h : Heap T) (p : Ptr) (c : Option T) (b i : Nat) :
    (h.write p c).slot b i = if b = p.block ∧ i = p.off then c else h.slot b i := rfl

@[simp] theorem Heap.patch_next (h : Heap T) (b lo hi : Nat) (g : Nat → Option T) :
    (h.patch b lo hi g).next = h.next := rfl

@[simp] theorem Heap.patch_extent (h : Heap T) (b lo hi : Nat) (g : Nat → Option T) :
    (h.patch b lo hi g).extent = h.extent := rfl

@[simp] theorem Heap.patch_fault (h : Heap T) (b lo hi : Nat) (g : Nat → Option T) :
    (h.patch b lo hi g).fault = h.fault := rfl

@[simp] theorem Heap.patch_slot (h : Heap T) (b lo hi : Nat) (g : Nat → Option T) (c i : Nat) :
    (h.patch b lo hi g).slot c i = if c = b ∧ lo ≤ i ∧ i < hi then g i else h.slot c i := rfl

theorem Heap.patch_empty (h : Heap T) (b lo : Nat) (g : Nat → Option T) :
    h.patch b lo lo g = h := by
  apply Heap.ext_fields <;> try rfl
  funext c i
  simp only [Heap.patch_slot]
  split_ifs with hc
  · omega
  · rfl

@[simp] theorem Heap.write_inside (h : Heap T) (p : Ptr) (c : Option T) (q : Ptr) :
    (h.write p c).inside q = h.inside q := rfl

@[simp] theorem Heap.patch_inside (h : Heap T) (b lo hi : Nat) (g : Nat → Option T) (q : Ptr) :
    (h.patch b lo hi g).inside q = h.inside q := rfl

theorem Heap.inside_of {h : Heap T} {p : Ptr} {c : Nat} (he : h.extent p.block = some c)
    (hp : p.off < c) : h.inside p = true := by
  simp [Heap.inside, he, hp]

theorem Heap.patch_self (h : Heap T) (b lo hi : Nat) (g : Nat → Option T)
    (hg : ∀ i, lo ≤ i → i < hi → g i = h.slot b i) : h.patch b lo hi g = h := by
  apply Heap.ext_fields <;> try rfl
  funext c i
  simp only [Heap.patch_slot]
  by_cases hc : c = b ∧ lo ≤ i ∧ i < hi
  · rw [if_pos hc, hg i hc.2.1 hc.2.2, hc.1]
  · rw [if_neg hc]

theorem Heap.read_of {h : Heap T} {p : Ptr} (hp : h.inside p = true) :
    h.read p = h.slot p.block p.off := by
  simp [Heap.read, hp]

theorem construct_at_eq {h : Heap T} {p : Ptr} (x : T)
    (hp : h.inside p = true) (hs : h.slot p.block p.off = none) :
    construct_at h p x = h.write p (some x) := by
  simp [construct_at, hp, hs]

theorem destroy_at_eq {h : Heap T} {p : Ptr} {x : T}
    (hp : h.inside p = true) (hs : h.slot p.block p.off = some x) :
    destroy_at h p = h.write p none := by
  simp [destroy_at, Heap.read_of hp, hs]

theorem move_assign_eq [Element T] {h : Heap T} {p q : Ptr} {x y : T}
    (hp : h.inside p = true) (hq : h.inside q = true)
    (hx : h.slot p.block p.off = some x) (hy : h.slot q.block q.off = some y) :
    move_assign h p q = (h.write q (some x)).write p (some (Element.moved_from x)) := by
  simp [move_assign, Heap.read_of hp, Heap.read_of hq, hx, hy]

theorem assign_value_eq {h : Heap T} {p : Ptr} {y : T} (x : T)
    (hp : h.inside p = true) (hy : h.slot p.block p.off = some y) :
    assign_value h p x = h.write p (some x) := by
  simp [assign_value, Heap.read_of hp, hy]

theorem destroy_n_eq (n : Nat) : ∀ (h : Heap T) (b lo : Nat),
    (∀ i, lo ≤ i → i < lo + n → h.inside ⟨b, i⟩ = true) →
    (∀ i, lo ≤ i → i < lo + n → (h.slot b i).isSome = true) →
    destroy_n h ⟨b, lo⟩ n = h.patch b lo (lo + n) (fun _ => none) := by
  induction n with
  | zero => intro h b lo _ _; simp [destroy_n, Heap.patch_empty]
  | succ n ih =>
    intro h b lo hin hs
    obtain ⟨x, hx⟩ := Option.isSome_iff_exists.mp (hs lo (le_refl _) (by omega))
    have h1 : destroy_at h ⟨b, lo⟩ = h.write ⟨b, lo⟩ none :=
      destroy_at_eq (p := ⟨b, lo⟩) (hin lo (le_refl _) (by omega)) hx
    simp only [destroy_n, h1, Ptr.add]
    rw [ih _ b (lo + 1)]
    · apply Heap.ext_fields <;> try rfl
      funext d i
      simp only [Heap.patch_slot, Heap.write_slot]
      by_cases hd : d = b
      · by_cases h2 : i = lo
        · simp [hd, h2]
        · have : (lo + 1 ≤ i ∧ i < lo + 1 + n) ↔ (lo ≤ i ∧ i < lo + (n + 1)) := by omega
          simp [hd, h2, this]
      · simp [hd]
    · intro i hi1 hi2
      simpa using hin i (by omega) (by omega)
    · intro i hi1 hi2
      have : ¬ (i = lo) := by omega
      simp only [Heap.write_slot, this, and_false, if_false]
      exact hs i (by omega) (by omega)

theorem uninitialized_value_construct_n_eq [Element T] (n : Nat) : ∀ (h : Heap T) (b lo : Nat),
    (∀ i, lo ≤ i → i < lo + n → h.inside ⟨b, i⟩ = true) →
    (∀ i, lo ≤ i → i < lo + n → h.slot b i = none) →
    uninitialized_value_construct_n h ⟨b, lo⟩ n =
      h.patch b lo (lo + n) (fun _ => some Element.value_init) := by
  induction n with
  | zero => intro h b lo _ _; simp [uninitialized_value_construct_n, Heap.patch_empty]
  | succ n ih =>
    intro h b lo hin hs
    have h1 : construct_at h ⟨b, lo⟩ (Element.value_init : T) =
        h.write ⟨b, lo⟩ (some Element.value_init) :=
      construct_at_eq (p := ⟨b, lo⟩) _ (hin lo (le_refl _) (by omega))
        (hs lo (le_refl _) (by omega))
    simp only [uninitialized_value_construct_n, h1, Ptr.add]
    rw [ih _ b (lo + 1)]
    · apply Heap.ext_fields <;> try rfl
      funext d i
      simp only [Heap.patch_slot, Heap.write_slot]
      by_cases hd : d = b
      · by_cases h2 : i = lo
        · simp [hd, h2]
        · have : (lo + 1 ≤ i ∧ i < lo + 1 + n) ↔ (lo ≤ i ∧ i < lo + (n + 1)) := by omega
          simp [hd, h2, this]
      · simp [hd]
    · intro i hi1 hi2
      simpa using hin i (by omega) (by omega)
    · intro i hi1 hi2
      have : ¬ (i = lo) := by omega
      simp only [Heap.write_slot, this, and_false, if_false]
      exact hs i (by omega) (by omega)

theorem uninitialized_copy_n_eq (n : Nat) : ∀ (h : Heap T) (sb slo db dlo : Nat),
    sb ≠ db →
    (∀ i, slo ≤ i → i < slo + n → h.inside ⟨sb, i⟩ = true) →
    (∀ i, dlo ≤ i → i < dlo + n → h.inside ⟨db, i⟩ = true) →
    (∀ i, slo ≤ i → i < slo + n → (h.slot sb i).isSome = true) →
    (∀ i, dlo ≤ i → i < dlo + n → h.slot db i = none) →
    uninitialized_copy_n h ⟨sb, slo⟩ n ⟨db, dlo⟩ =
      h.patch db dlo (dlo + n) (fun i => h.slot sb (slo + (i - dlo))) := by
  induction n with
  | zero => intro h sb slo db dlo _ _ _ _ _; simp [uninitialized_copy_n, Heap.patch_empty]
  | succ n ih =>
    intro h sb slo db dlo hne his hid hs hd
    obtain ⟨x, hx⟩ := Option.isSome_iff_exists.mp (hs slo (le_refl _) (by omega))
    have hr : h.read ⟨sb, slo⟩ = some x := by
      rw [Heap.read_of (p := ⟨sb, slo⟩) (his slo (le_refl _) (by omega))]; exact hx
    have h1 : copy_construct h ⟨sb, slo⟩ ⟨db, dlo⟩ = h.write ⟨db, dlo⟩ (some x) := by
      simp only [copy_construct, hr]
      exact construct_at_eq (p := ⟨db, dlo⟩) _ (hid dlo (le_refl _) (by omega))
        (hd dlo (le_refl _) (by omega))
    simp only [uninitialized_copy_n, h1, Ptr.add]
    rw [ih _ sb (slo + 1) db (dlo + 1) hne]
    · apply Heap.ext_fields <;> try rfl
      funext d i
      simp only [Heap.patch_slot, Heap.write_slot]
      by_cases hdb : d = db
      · by_cases h2 : i = dlo
        · simp [hdb, h2, hx]
        · have e1 : (dlo + 1 ≤ i ∧ i < dlo + 1 + n) ↔ (dlo ≤ i ∧ i < dlo + (n + 1)) := by omega
          simp only [hdb, h2, e1, true_and, and_false, if_false]
          by_cases h3 : dlo ≤ i ∧ i < dlo + (n + 1)
          · have e2 : slo + 1 + (i - (dlo + 1)) = slo + (i - dlo) := by omega
            rw [if_pos h3, if_pos h3, if_neg (fun e => hne e.1), e2]
          · rw [if_neg h3, if_neg h3]
      · simp [hdb]
    · intro i hi1 hi2
      simpa using his i (by omega) (by omega)
    · intro i hi1 hi2
      simpa using hid i (by omega) (by omega)
    · intro i hi1 hi2
      simp only [Heap.write_slot, hne, false_and, if_false]
      exact hs i (by omega) (by omega)
    · intro i hi1 hi2
      have : ¬ (i = dlo) := by omega
      simp only [Heap.write_slot, this, and_false, if_false]
      exact hd i (by omega) (by omega)

theorem uninitialized_move_n_eq [Element T] (n : Nat) :
    ∀ (h : Heap T) (sb slo db dlo : Nat),
    sb ≠ db →
    (∀ i, slo ≤ i → i < slo + n → h.inside ⟨sb, i⟩ = true) →
    (∀ i, dlo ≤ i → i < dlo + n → h.inside ⟨db, i⟩ = true) →
    (∀ i, slo ≤ i → i < slo + n → (h.slot sb i).isSome = true) →
    (∀ i, dlo ≤ i → i < dlo + n → h.slot db i = none) →
    uninitialized_move_n h ⟨sb, slo⟩ n ⟨db, dlo⟩ =
      (h.patch db dlo (dlo + n) (fun i => h.slot sb (slo + (i - dlo)))).patch sb slo (slo + n)
        (fun i => (h.slot sb i).map Element.moved_from) := by
  induction n with
  | zero =>
    intro h sb slo db dlo _ _ _ _ _
    simp [uninitialized_move_n, Heap.patch_empty]
  | succ n ih =>
    intro h sb slo db dlo hne his hid hs hd
    obtain ⟨x, hx⟩ := Option.isSome_iff_exists.mp (hs slo (le_refl _) (by omega))
    have hr : h.read ⟨sb, slo⟩ = some x := by
      rw [Heap.read_of (p := ⟨sb, slo⟩) (his slo (le_refl _) (by omega))]; exact hx
    have h1 : move_construct h ⟨sb, slo⟩ ⟨db, dlo⟩ =
        (h.write ⟨db, dlo⟩ (some x)).write ⟨sb, slo⟩ (some (Element.moved_from x)) := by
      simp only [move_construct, hr]
      rw [construct_at_eq (p := ⟨db, dlo⟩) _ (hid dlo (le_refl _) (by omega))
        (hd dlo (le_refl _) (by omega))]
    have hne2 : ¬ (db = sb) := fun e => hne e.symm
    simp only [uninitialized_move_n, h1, Ptr.add]
    rw [ih _ sb (slo + 1) db (dlo + 1) hne]
    · apply Heap.ext_fields <;> try rfl
      funext d i
      simp only [Heap.patch_slot, Heap.write_slot]
      by_cases hsb : d = sb
      · subst hsb
        by_cases h2 : i = slo
        · simp [h2, hx, hne]
        · have e1 : (slo + 1 ≤ i ∧ i < slo + 1 + n) ↔ (slo ≤ i ∧ i < slo + (n + 1)) := by omega
          simp [h2, e1, hne]
      · by_cases hdb : d = db
        · subst hdb
          by_cases h2 : i = dlo
          · simp [h2, hx, hne2]
          · have e1 : (dlo + 1 ≤ i ∧ i < dlo + 1 + n) ↔ (dlo ≤ i ∧ i < dlo + (n + 1)) := by
              omega
            simp only [hsb, h2, e1, true_and, false_and, and_false, if_false]
            by_cases h3 : dlo ≤ i ∧ i < dlo + (n + 1)
            · have e2 : slo + 1 + (i - (dlo + 1)) = slo + (i - dlo) := by omega
              have e3 : ¬ (slo + (i - dlo) = slo) := by omega
              rw [if_pos h3, if_pos h3, if_neg (fun e => e3 (e2 ▸ e)), if_neg (fun e => hne e.1), e2]
            · rw [if_neg h3, if_neg h3]
        · simp [hsb, hdb]
    · intro i hi1 hi2
      simpa using his i (by omega) (by omega)
    · intro i hi1 hi2
      simpa using hid i (by omega) (by omega)
    · intro i hi1 hi2
      have : ¬ (i = slo) := by omega
      simp only [Heap.write_slot, this, and_false, if_false, hne, false_and]
      exact hs i (by omega) (by omega)
    · intro i hi1 hi2
      have : ¬ (i = dlo) := by omega
      simp only [Heap.write_slot, this, and_false, if_false, hne2, false_and]
      exact hd i (by omega) (by omega)

theorem move_assign_eq2 [Element T] {h : Heap T} {p q : Ptr}
    (hp : h.inside p = true) (hq : h.inside q = true)
    (hx : (h.slot p.block p.off).isSome = true) (hy : (h.slot q.block q.off).isSome = true) :
    move_assign h p q = (h.write q (h.slot p.block p.off)).write p
      ((h.slot p.block p.off).map Element.moved_from) := by
  obtain ⟨x, hx⟩ := Option.isSome_iff_exists.mp hx
  obtain ⟨y, hy⟩ := Option.isSome_iff_exists.mp hy
  rw [move_assign_eq hp hq hx hy, hx]; rfl

theorem move_range_eq [Element T] (n : Nat) : ∀ (h : Heap T) (b lo : Nat),
    (∀ i, lo ≤ i → i < lo + n + 2 → h.inside ⟨b, i⟩ = true) →
    (∀ i, lo ≤ i → i < lo + n + 2 → (h.slot b i).isSome = true) →
    move_range h ⟨b, lo + 1⟩ (n + 1) ⟨b, lo⟩ =
      h.patch b lo (lo + n + 2)
        (fun i => if i < lo + n + 1 then h.slot b (i + 1)
          else (h.slot b i).map Element.moved_from) := by
  induction n with
  | zero =>
    intro h b lo hin hs
    have h1 := move_assign_eq2 (p := ⟨b, lo + 1⟩) (q := ⟨b, lo⟩)
      (hin (lo + 1) (by omega) (by omega)) (hin lo (by omega) (by omega))
      (hs (lo + 1) (by omega) (by omega)) (hs lo (by omega) (by omega))
    simp only [move_range, h1]
    apply Heap.ext_fields <;> try rfl
    funext d i
    simp only [Heap.patch_slot, Heap.write_slot]
    split_ifs <;>
      first | rfl | (exfalso; omega) | (congr 1 <;> omega) | (congr 2 <;> omega)
  | succ n ih =>
    intro h b lo hin hs
    have h1 := move_assign_eq2 (p := ⟨b, lo + 1⟩) (q := ⟨b, lo⟩)
      (hin (lo + 1) (by omega) (by omega)) (hin lo (by omega) (by omega))
      (hs (lo + 1) (by omega) (by omega)) (hs lo (by omega) (by omega))
    rw [move_range, h1]
    simp only [Ptr.add]
    rw [ih _ b (lo + 1)]
    · apply Heap.ext_fields <;> try rfl
      funext d i
      simp only [Heap.patch_slot, Heap.write_slot]
      split_ifs <;>
        first | rfl | (exfalso; omega) | (congr 1 <;> omega) | (congr 2 <;> omega)
    · intro i hi1 hi2
      simpa using hin i (by omega) (by omega)
    · intro i hi1 hi2
      have e1 : ¬ (i = lo) := by omega
      simp only [Heap.write_slot, e1, and_false, if_false, true_and]
      by_cases e2 : i = lo + 1
      · simpa [e2] using hs (lo + 1) (by omega) (by omega)
      · simp only [e2, if_false]
        exact hs i (by omega) (by omega)

theorem move_backward_eq [Element T] (n : Nat) : ∀ (h : Heap T) (b lo : Nat),
    (∀ i, lo ≤ i → i < lo + n + 2 → h.inside ⟨b, i⟩ = true) →
    (∀ i, lo ≤ i → i < lo + n + 2 → (h.slot b i).isSome = true) →
    move_backward h ⟨b, lo + n + 1⟩ (n + 1) ⟨b, lo + n + 2⟩ =
      h.patch b lo (lo + n + 2)
        (fun i => if lo < i then h.slot b (i - 1)
          else (h.slot b i).map Element.moved_from) := by
  induction n with
  | zero =>
    intro h b lo hin hs
    have h1 := move_assign_eq2 (p := ⟨b, lo⟩) (q := ⟨b, lo + 1⟩)
      (hin lo (by omega) (by omega)) (hin (lo + 1) (by omega) (by omega))
      (hs lo (by omega) (by omega)) (hs (lo + 1) (by omega) (by omega))
    simp only [move_backward, Ptr.sub, Nat.add_zero, Nat.add_sub_cancel]
    rw [show lo + 2 - 1 = lo + 1 by omega, h1]
    apply Heap.ext_fields <;> try rfl
    funext d i
    simp only [Heap.patch_slot, Heap.write_slot]
    split_ifs <;>
      first | rfl | (exfalso; omega) | (congr 1 <;> omega) | (congr 2 <;> omega)
  | succ n ih =>
    intro h b lo hin hs
    have h1 := move_assign_eq2 (p := ⟨b, lo + n + 1⟩) (q := ⟨b, lo + n + 2⟩)
      (hin (lo + n + 1) (by omega) (by omega)) (hin (lo + n + 2) (by omega) (by omega))
      (hs (lo + n + 1) (by omega) (by omega)) (hs (lo + n + 2) (by omega) (by omega))
    rw [move_backward]
    simp only [Ptr.sub]
    rw [show lo + (n + 1) + 1 - 1 = lo + n + 1 by omega,
      show lo + (n + 1) + 2 - 1 = lo + n + 2 by omega, h1, ih _ b lo]
    · apply Heap.ext_fields <;> try rfl
      funext d i
      simp only [Heap.patch_slot, Heap.write_slot]
      split_ifs <;>
        first | rfl | (exfalso; omega) | (congr 1 <;> omega) | (congr 2 <;> omega)
    · intro i hi1 hi2
      simpa using hin i (by omega) (by omega)
    · intro i hi1 hi2
      have e1 : ¬ (i = lo + n + 2) := by omega
      simp only [Heap.write_slot, e1, and_false, if_false, true_and]
      by_cases e2 : i = lo + n + 1
      · simpa [e2] using hs (lo + n + 1) (by omega) (by omega)
      · simp only [e2, if_false]
        exact hs i (by omega) (by omega)

/-! ## Allocation, release and transfer -/

theorem Vector.CopyOrMove_eq [Element T] (n : Nat) (h : Heap T) (sb slo db dlo : Nat)
    (hne : sb ≠ db)
    (his : ∀ i, slo ≤ i → i < slo + n → h.inside ⟨sb, i⟩ = true)
    (hid : ∀ i, dlo ≤ i → i < dlo + n → h.inside ⟨db, i⟩ = true)
    (hs : ∀ i, slo ≤ i → i < slo + n → (h.slot sb i).isSome = true)
    (hd : ∀ i, dlo ≤ i → i < dlo + n → h.slot db i = none) :
    Vector.CopyOrMove h ⟨sb, slo⟩ n ⟨db, dlo⟩ =
      (h.patch db dlo (dlo + n) (fun i => h.slot sb (slo + (i - dlo)))).patch sb slo (slo + n)
        (fun i => (h.slot sb i).map (transferred T)) := by
  unfold Vector.CopyOrMove transferred
  split_ifs with hc
  · exact uninitialized_move_n_eq n h sb slo db dlo hne his hid hs hd
  · rw [uninitialized_copy_n_eq n h sb slo db dlo hne his hid hs hd]
    symm
    apply Heap.patch_self
    intro i _ _
    simp [hne]

theorem Fits.one (T : Type) [Element T] : Fits T 1 := by
  unfold Fits
  rw [Nat.one_mul]
  exact Element.sizeof_lt

theorem Fits.grown {T : Type} [Element T] {s : Nat} (hs : Fits T (2 * s)) :
    Fits T (if s = 0 then 1 else s * 2) := by
  split_ifs with h0
  · exact Fits.one T
  · rw [Nat.mul_comm]; exact hs

theorem Fits.twice {T : Type} [Element T] {s : Nat} (hs : Fits T (2 * s)) : Fits T (s * 2) := by
  rw [Nat.mul_comm]; exact hs

theorem Fits.slots {T : Type} [Element T] {n : Nat} (hn : Fits T n) :
    n * Element.sizeof T % 2 ^ 64 / Element.sizeof T = n := by
  unfold Fits at hn
  rw [Nat.mod_eq_of_lt hn, Nat.mul_div_cancel _ Element.sizeof_pos]

theorem RawMemory.create_fst [Element T] (h : Heap T) (n : Nat) (hn : n ≠ 0) (hfit : Fits T n) :
    (RawMemory.create h n).1 =
      { h with
        next := h.next + 1
        extent := fun b => if b = h.next + 1 then some n else h.extent b
        slot := fun b i => if b = h.next + 1 then none else h.slot b i } := by
  simp only [RawMemory.create, RawMemory.Allocate, operator_new, ne_eq, hn, not_false_eq_true,
    if_true, hfit.slots]

theorem RawMemory.create_snd [Element T] (h : Heap T) (n : Nat) (hn : n ≠ 0) :
    (RawMemory.create h n).2 = { buffer_ := ⟨h.next + 1, 0⟩, capacity_ := n } := by
  simp [RawMemory.create, RawMemory.Allocate, operator_new, hn]

theorem RawMemory.create_zero [Element T] (h : Heap T) :
    RawMemory.create h 0 = (h, { buffer_ := nullptr, capacity_ := 0 }) := by
  simp [RawMemory.create, RawMemory.Allocate]

theorem RawMemory.Deallocate_null (h : Heap T) (o : Nat) (ho : o = 0) :
    RawMemory.Deallocate h ⟨0, o⟩ = h := by
  subst ho; simp [RawMemory.Deallocate, nullptr]

theorem RawMemory.Deallocate_eq (h : Heap T) (b c : Nat) (hb : b ≠ 0)
    (he : h.extent b = some c) :
    RawMemory.Deallocate h ⟨b, 0⟩ =
      { h with extent := fun d => if d = b then none else h.extent d } := by
  simp [RawMemory.Deallocate, nullptr, hb, he]

/-! ## The data invariant -/

theorem Models.inside {h : Heap T} {v : Vector} {xs : List T} (hM : Models h v xs) (i : Nat)
    (hi : i < v.data_.capacity_) : h.inside ⟨v.data_.buffer_.block, i⟩ = true := by
  obtain ⟨_, _, _, _, _, _, h7, _⟩ := hM
  exact Heap.inside_of (p := ⟨v.data_.buffer_.block, i⟩) (h7 (by omega)).2 hi

theorem Models.slot_isSome {h : Heap T} {v : Vector} {xs : List T} (hM : Models h v xs) (i : Nat)
    (hi : i < v.size_) : (h.slot v.data_.buffer_.block i).isSome = true := by
  obtain ⟨_, h2, h3, _, _, _, _, h8⟩ := hM
  rw [h8 i (by omega), List.getElem?_eq_getElem (by omega)]; rfl

theorem Models.slot_none {h : Heap T} {v : Vector} {xs : List T} (hM : Models h v xs) (i : Nat)
    (hi : v.size_ ≤ i) (hc : i < v.data_.capacity_) : h.slot v.data_.buffer_.block i = none := by
  obtain ⟨_, h2, h3, _, _, _, _, h8⟩ := hM
  rw [h8 i hc, List.getElem?_eq_none (by omega)]

theorem Models.toList {h : Heap T} {v : Vector} {xs : List T} (hM : Models h v xs) :
    Vector.toList h v = xs.map some := by
  have hin := hM.inside
  obtain ⟨_, h2, h3, h4, _, _, _, h8⟩ := hM
  apply List.ext_getElem?
  intro i
  simp only [Vector.toList, List.getElem?_map, List.getElem?_range]
  by_cases hi : i < v.size_
  · have e : v.data_.plus i = ⟨v.data_.buffer_.block, i⟩ := by
      simp [RawMemory.plus, Ptr.add, h4]
    rw [List.getElem?_range hi]
    simp only [Option.map_some', Vector.at, e]
    rw [Heap.read_of (hin i (by omega)), h8 i (by omega), List.getElem?_eq_getElem (by omega)]
    simp
  · rw [List.getElem?_eq_none (by simpa using hi), List.getElem?_eq_none (by omega)]
    simp

/-! ## `Reserve` -/

theorem Vector.Reserve_noop [Element T] (h : Heap T) (v : Vector) (n : Nat)
    (hn : n ≤ v.Capacity) : Vector.Reserve h v n = (h, v) := by
  simp [Vector.Reserve, hn]

theorem Vector.Reserve_grow [Element T] {h : Heap T} {v : Vector} {xs : List T}
    (hM : Models h v xs) (n : Nat) (hn : v.Capacity < n) (hfit : Fits T n) :
    Models (Vector.Reserve h v n).1 (Vector.Reserve h v n).2 xs ∧
    (Vector.Reserve h v n).2.data_ = { buffer_ := ⟨h.next + 1, 0⟩, capacity_ := n } := by
  have hin := hM.inside
  have hsome := hM.slot_isSome
  obtain ⟨⟨⟨b, o⟩, cap⟩, sz⟩ := v
  obtain ⟨h1, h2, h3, h4, h5, h6, h7, h8⟩ := hM
  simp only [Vector.Capacity, RawMemory.Capacity] at hn h2 h3 h4 h5 h6 h7 h8 hin hsome
  subst h4
  have hn0 : n ≠ 0 := by omega
  have hnb : b ≠ h.next + 1 := by omega
  have hnb2 : ¬ (h.next + 1 = b) := fun e => hnb e.symm
  have hlt : ¬ (n ≤ cap) := by omega
  simp only [Vector.Reserve, Vector.Capacity, RawMemory.Capacity, hlt, if_false,
    RawMemory.create_snd h n hn0, RawMemory.create_fst h n hn0 hfit, Vector.begin,
    RawMemory.GetAddress, RawMemory.Swap, RawMemory.destroy]
  rw [Vector.CopyOrMove_eq sz _ b 0 (h.next + 1) 0 hnb]
  rotate_left
  · intro i _ hi
    have := hin i (by omega)
    simpa [Heap.inside, hnb] using this
  · intro i _ hi
    simp [Heap.inside]; omega
  · intro i _ hi
    simpa [hnb] using hsome i (by omega)
  · intro i _ hi
    simp
  rw [destroy_n_eq sz _ b 0]
  rotate_left
  · intro i _ hi
    have := hin i (by omega)
    simpa [Heap.inside, hnb] using this
  · intro i _ hi
    have := hsome i (by omega)
    obtain ⟨x, hx⟩ := Option.isSome_iff_exists.mp this
    have h0 : 0 ≤ i ∧ i < 0 + sz := by omega
    have h0b : i < sz := by omega
    simp [hnb, hx, h0, h0b]
  refine ⟨?_, trivial⟩
  unfold Models
  dsimp only
  by_cases hc : cap = 0
  · have hb0 : b = 0 := h6 hc
    subst hb0
    rw [RawMemory.Deallocate_null _ 0 rfl]
    refine ⟨h1, h2, by omega, rfl, by simp, fun e => absurd e hn0, fun _ => ⟨by simp, by simp⟩,
      ?_⟩
    intro i hi
    have hsz : sz = 0 := by omega
    subst hsz
    have : xs = [] := List.length_eq_zero.mp h2.symm
    simp [this]
  · obtain ⟨hb0, he⟩ := h7 hc
    rw [RawMemory.Deallocate_eq _ b cap hb0 (by simpa [hnb] using he)]
    refine ⟨h1, h2, by omega, rfl, by simp, fun e => absurd e hn0,
      fun _ => ⟨by simp, by simp [hnb2]⟩, ?_⟩
    intro i hi
    by_cases hi2 : i < sz
    · have h0 : 0 ≤ i ∧ i < 0 + sz := by omega
      simp [hnb2, hnb, h0, h8 i (by omega), hi2]
    · have h0 : ¬ (0 ≤ i ∧ i < 0 + sz) := by omega
      simp [hnb2, h0, hi2]
      omega

/-! ## `EmplaceBack`, `PushBack`, `PopBack` -/

theorem getElem?_snoc_lt {xs : List T} {x : T} {i : Nat} (hi : i < xs.length) :
    (xs ++ [x])[i]? = xs[i]? := List.getElem?_append_left hi

theorem getElem?_snoc_eq {xs : List T} {x : T} : (xs ++ [x])[xs.length]? = some x := by
  simp

theorem getElem?_snoc_gt {xs : List T} {x : T} {i : Nat} (hi : xs.length < i) :
    (xs ++ [x])[i]? = none := by
  apply List.getElem?_eq_none; simp; omega

theorem Vector.EmplaceBack_spare [Element T] {h : Heap T} {v : Vector} {xs : List T}
    (hM : Models h v xs) (x : T) (hc : v.size_ < v.Capacity) :
    Models (Vector.EmplaceBack h v x).1 (Vector.EmplaceBack h v x).2.1 (xs ++ [x]) ∧
    (Vector.EmplaceBack h v x).2.1.data_ = v.data_ ∧
    (Vector.EmplaceBack h v x).2.2 = ⟨v.data_.buffer_.block, v.size_⟩ ∧
    (Vector.EmplaceBack h v x).1.next = h.next := by
  have hin := hM.inside
  have hnone := hM.slot_none
  obtain ⟨⟨⟨b, o⟩, cap⟩, sz⟩ := v
  obtain ⟨h1, h2, h3, h4, h5, h6, h7, h8⟩ := hM
  simp only [Vector.Capacity, RawMemory.Capacity] at hc h2 h3 h4 h5 h6 h7 h8 hin hnone
  subst h4
  have hne : ¬ (cap = sz) := by omega
  simp only [Vector.EmplaceBack, Vector.Capacity, RawMemory.Capacity, hne, if_false,
    RawMemory.plus, Ptr.add, Nat.zero_add, Nat.add_sub_cancel]
  rw [construct_at_eq (p := ⟨b, sz⟩) x (hin sz hc) (hnone sz (le_refl _) hc)]
  refine ⟨?_, trivial, trivial, rfl⟩
  unfold Models
  dsimp only
  refine ⟨h1, by simp [h2], by simp; omega, rfl, h5, h6, h7, ?_⟩
  intro i hi
  simp only [Heap.write_slot, true_and]
  by_cases e1 : i = sz
  · subst e1; simp [h2]
  · rw [if_neg e1, h8 i hi]
    by_cases e2 : i < sz
    · rw [getElem?_snoc_lt (by omega)]
    · rw [getElem?_snoc_gt (by omega), List.getElem?_eq_none (by omega)]

theorem Vector.EmplaceBack_full [Element T] {h : Heap T} {v : Vector} {xs : List T}
    (hM : Models h v xs) (x : T) (hc : v.Capacity = v.size_)
    (hfit : Fits T (if v.size_ = 0 then 1 else v.size_ * 2)) :
    Models (Vector.EmplaceBack h v x).1 (Vector.EmplaceBack h v x).2.1 (xs ++ [x]) ∧
    (Vector.EmplaceBack h v x).2.1.data_ =
      { buffer_ := ⟨h.next + 1, 0⟩, capacity_ := if v.size_ = 0 then 1 else v.size_ * 2 } ∧
    (Vector.EmplaceBack h v x).2.2 = ⟨h.next + 1, v.size_⟩ ∧
    (Vector.EmplaceBack h v x).1.next = h.next + 1 := by
  have hin := hM.inside
  have hsome := hM.slot_isSome
  obtain ⟨⟨⟨b, o⟩, cap⟩, sz⟩ := v
  obtain ⟨h1, h2, h3, h4, h5, h6, h7, h8⟩ := hM
  simp only [Vector.Capacity, RawMemory.Capacity] at hc h2 h3 h4 h5 h6 h7 h8 hin hsome
  subst h4
  have hc2 := hc.symm
  subst hc2
  have hfit2 : Fits T (if sz = 0 then 1 else sz * 2) := hfit
  generalize hn : (if sz = 0 then 1 else sz * 2) = n at hfit2
  have hn0 : n ≠ 0 := by rw [← hn]; split_ifs <;> omega
  have hszn : sz < n := by rw [← hn]; split_ifs <;> omega
  have hnb : b ≠ h.next + 1 := by omega
  have hnb2 : ¬ (h.next + 1 = b) := fun e => hnb e.symm
  simp only [Vector.EmplaceBack, Vector.Capacity, RawMemory.Capacity, if_true, hn,
    RawMemory.create_snd h n hn0, RawMemory.create_fst h n hn0 hfit2,
    RawMemory.GetAddress, RawMemory.Swap, RawMemory.destroy, RawMemory.plus, Ptr.add,
    Nat.zero_add, Nat.add_sub_cancel]
  rw [construct_at_eq (p := ⟨h.next + 1, sz⟩) x (by simp [Heap.inside, hszn]) (by simp)]
  rw [Vector.CopyOrMove_eq sz _ b 0 (h.next + 1) 0 hnb]
  rotate_left
  · intro i _ hi
    have := hin i (by omega)
    simpa [Heap.inside, hnb] using this
  · intro i _ hi
    simp [Heap.inside]; omega
  · intro i _ hi
    simpa [hnb] using hsome i (by omega)
  · intro i _ hi
    have : ¬ (i = sz) := by omega
    simp [this]
  rw [destroy_n_eq sz _ b 0]
  rotate_left
  · intro i _ hi
    have := hin i (by omega)
    simpa [Heap.inside, hnb] using this
  · intro i _ hi
    have := hsome i (by omega)
    obtain ⟨y, hy⟩ := Option.isSome_iff_exists.mp this
    have h0 : 0 ≤ i ∧ i < 0 + sz := by omega
    have h0b : i < sz := by omega
    simp [hnb, hy, h0, h0b]
  have key : ∀ i, i < n →
      (if h.next + 1 = b ∧ 0 ≤ i ∧ i < 0 + sz then (none : Option T)
        else if h.next + 1 = b ∧ 0 ≤ i ∧ i < 0 + sz then
          Option.map (transferred T) (if b = h.next + 1 ∧ i = sz then some x
            else if b = h.next + 1 then none else h.slot b i)
        else if h.next + 1 = h.next + 1 ∧ 0 ≤ i ∧ i < 0 + sz then
          (if b = h.next + 1 ∧ 0 + (i - 0) = sz then some x
            else if b = h.next + 1 then none else h.slot b (0 + (i - 0)))
        else if h.next + 1 = h.next + 1 ∧ i = sz then some x
        else if h.next + 1 = h.next + 1 then none else h.slot (h.next + 1) i) =
      (xs ++ [x])[i]? := by
    intro i hi
    rw [if_neg (fun e => hnb2 e.1), if_neg (fun e => hnb2 e.1)]
    by_cases e2 : i < sz
    · rw [if_pos ⟨rfl, by omega, by omega⟩, if_neg (fun e => hnb e.1), if_neg hnb,
        getElem?_snoc_lt (by omega), ← h8 i e2]
      congr 1
      omega
    · rw [if_neg (by omega)]
      by_cases e1 : i = sz
      · subst e1; simp [h2]
      · rw [if_neg (by omega), if_pos rfl, getElem?_snoc_gt (by omega)]
  refine ⟨?_, trivial, trivial, ?_⟩
  · unfold Models
    dsimp only
    by_cases hc : sz = 0
    · have hb0 : b = 0 := h6 hc
      subst hb0
      rw [RawMemory.Deallocate_null _ 0 rfl]
      exact ⟨h1, by simp [h2], by simp; omega, rfl, by simp, fun e => absurd e hn0,
        fun _ => ⟨by simp, by simp⟩, key⟩
    · obtain ⟨hb0, he⟩ := h7 hc
      rw [RawMemory.Deallocate_eq _ b sz hb0 (by simpa [hnb] using he)]
      exact ⟨h1, by simp [h2], by simp; omega, rfl, by simp, fun e => absurd e hn0,
        fun _ => ⟨by simp, by simp [hnb2]⟩, key⟩
  · by_cases hc : sz = 0
    · have hb0 : b = 0 := h6 hc
      subst hb0
      rw [RawMemory.Deallocate_null _ 0 rfl]
      rfl
    · obtain ⟨hb0, he⟩ := h7 hc
      rw [RawMemory.Deallocate_eq _ b sz hb0 (by simpa [hnb] using he)]
      rfl

theorem getElem?_erase (xs : List T) (k i : Nat) :
    (xs.take k ++ xs.drop (k + 1))[i]? = if i < k then xs[i]? else xs[i + 1]? := by
  rw [← List.eraseIdx_eq_take_drop_succ, List.getElem?_eraseIdx]

theorem Vector.Erase_spec [Element T] {h : Heap T} {v : Vector} {xs : List T}
    (hM : Models h v xs) (k : Nat) (hk : k < v.size_) :
    Models (Vector.Erase h v (v.begin.add k)).1 (Vector.Erase h v (v.begin.add k)).2.1
      (xs.take k ++ xs.drop (k + 1)) ∧
    (Vector.Erase h v (v.begin.add k)).2.1.data_ = v.data_ ∧
    (Vector.Erase h v (v.begin.add k)).2.2 = v.begin.add k ∧
    (Vector.Erase h v (v.begin.add k)).1.next = h.next := by
  have hin := hM.inside
  have hsome := hM.slot_isSome
  obtain ⟨⟨⟨b, o⟩, cap⟩, sz⟩ := v
  obtain ⟨h1, h2, h3, h4, h5, h6, h7, h8⟩ := hM
  simp only [] at hk h2 h3 h4 h5 h6 h7 h8 hin hsome
  subst h4
  simp only [Vector.Erase, Vector.PopBack, Vector.end, Vector.begin, RawMemory.GetAddress,
    RawMemory.plus, Ptr.add, Ptr.sub, Ptr.diff, Nat.zero_add, Nat.sub_zero]
  have hlen : (xs.take k ++ xs.drop (k + 1)).length = sz - 1 := by simp; omega
  by_cases hlast : sz - (k + 1) = 0
  · have hk2 : k = sz - 1 := by omega
    obtain ⟨y, hy⟩ := Option.isSome_iff_exists.mp (hsome (sz - 1) (by omega))
    rw [hlast]
    simp only [move_range]
    rw [destroy_at_eq (p := ⟨b, sz - 1⟩) (hin (sz - 1) (by omega)) hy]
    refine ⟨?_, trivial, trivial, rfl⟩
    unfold Models
    dsimp only
    refine ⟨h1, hlen.symm, by omega, rfl, h5, h6, h7, ?_⟩
    intro i hi
    simp only [Heap.write_slot, true_and, getElem?_erase]
    by_cases e1 : i = sz - 1
    · rw [if_pos e1, if_neg (by omega), List.getElem?_eq_none (by omega)]
    · rw [if_neg e1, h8 i hi]
      by_cases e2 : i < k
      · rw [if_pos e2]
      · rw [if_neg e2, List.getElem?_eq_none (by omega), List.getElem?_eq_none (by omega)]
  · obtain ⟨m, hm⟩ : ∃ m, sz - (k + 1) = m + 1 := ⟨sz - (k + 1) - 1, by omega⟩
    rw [hm, move_range_eq m h b k (fun i _ hi => hin i (by omega))
      (fun i _ hi => hsome i (by omega))]
    have hlive : ((h.patch b k (k + m + 2) fun i =>
        if i < k + m + 1 then h.slot b (i + 1)
        else Option.map Element.moved_from (h.slot b i)).slot b (sz - 1)).isSome = true := by
      have e : k ≤ sz - 1 ∧ sz - 1 < k + m + 2 := by omega
      have e2 : ¬ (sz - 1 < k + m + 1) := by omega
      simp only [Heap.patch_slot, true_and, if_pos e, if_neg e2]
      have := hsome (sz - 1) (by omega)
      obtain ⟨y, hy⟩ := Option.isSome_iff_exists.mp this
      simp [hy]
    obtain ⟨y, hy⟩ := Option.isSome_iff_exists.mp hlive
    rw [destroy_at_eq (p := ⟨b, sz - 1⟩) (by simpa using hin (sz - 1) (by omega)) hy]
    refine ⟨?_, trivial, trivial, rfl⟩
    unfold Models
    dsimp only
    refine ⟨h1, hlen.symm, by omega, rfl, h5, h6, h7, ?_⟩
    intro i hi
    simp only [Heap.write_slot, Heap.patch_slot, true_and, getElem?_erase]
    by_cases e1 : i = sz - 1
    · rw [if_pos e1, if_neg (by omega), List.getElem?_eq_none (by omega)]
    · rw [if_neg e1]
      by_cases e2 : i < k
      · rw [if_pos e2, if_neg (by omega), h8 i hi]
      · rw [if_neg e2]
        by_cases e3 : i < sz - 1
        · rw [if_pos (by omega), if_pos (by omega), h8 (i + 1) (by omega)]
        · rw [if_neg (by omega), h8 i hi, List.getElem?_eq_none (by omega),
            List.getElem?_eq_none (by omega)]

/-! ## `Emplace`, `Insert` -/

theorem getElem?_insert (xs : List T) (x : T) (k i : Nat) (hk : k ≤ xs.length) :
    (xs.take k ++ [x] ++ xs.drop k)[i]? =
      if i < k then xs[i]? else if i = k then some x else xs[i - 1]? := by
  have hl : (xs.take k).length = k := by simp; omega
  rw [List.append_assoc, List.getElem?_append, hl]
  by_cases e1 : i < k
  · rw [if_pos e1, if_pos e1, List.getElem?_take, if_pos e1]
  · rw [if_neg e1, if_neg e1]
    by_cases e2 : i = k
    · subst e2; simp
    · rw [if_neg e2]
      obtain ⟨j, hj⟩ : ∃ j, i - k = j + 1 := ⟨i - k - 1, by omega⟩
      rw [hj]
      simp only [List.singleton_append, List.getElem?_cons_succ, List.getElem?_drop]
      congr 1
      omega

theorem insert_slots {h : Heap T} {xs : List T} {b cap : Nat} (x : T) (k : Nat)
    (hk : k ≤ xs.length) (h3 : xs.length ≤ cap)
    (h8 : ∀ i, i < cap → h.slot b i = xs[i]?) (i : Nat) :
    (if i < k then h.slot b i else if i = k then some x
      else if i ≤ xs.length then h.slot b (i - 1) else none) =
    (xs.take k ++ [x] ++ xs.drop k)[i]? := by
  rw [getElem?_insert xs x k i hk]
  by_cases e1 : i < k
  · rw [if_pos e1, if_pos e1, h8 i (by omega)]
  · rw [if_neg e1, if_neg e1]
    by_cases e2 : i = k
    · rw [if_pos e2, if_pos e2]
    · rw [if_neg e2, if_neg e2]
      by_cases e3 : i ≤ xs.length
      · rw [if_pos e3, h8 (i - 1) (by omega)]
      · rw [if_neg e3, List.getElem?_eq_none (by omega)]

theorem move_construct_eq2 [Element T] {h : Heap T} {p q : Ptr}
    (hp : h.inside p = true) (hq : h.inside q = true)
    (hx : (h.slot p.block p.off).isSome = true) (hy : h.slot q.block q.off = none) :
    move_construct h p q = (h.write q (h.slot p.block p.off)).write p
      ((h.slot p.block p.off).map Element.moved_from) := by
  obtain ⟨x, hx⟩ := Option.isSome_iff_exists.mp hx
  simp only [move_construct, Heap.read_of hp, hx, construct_at_eq x hq hy]
  rfl

theorem Vector.Emplace_end [Element T] (h : Heap T) (v : Vector) (x : T) :
    Vector.Emplace h v (v.begin.add v.size_) x =
      ((Vector.EmplaceBack h v x).1, (Vector.EmplaceBack h v x).2.1,
        (Vector.EmplaceBack h v x).2.1.begin.add v.size_) := by
  have e : v.begin.add v.size_ = v.end := rfl
  simp only [Vector.Emplace, e, if_true]
  simp [Vector.EmplaceBack, Vector.begin, RawMemory.GetAddress, RawMemory.plus, Ptr.add, Ptr.sub]
  split_ifs <;> rfl

theorem Vector.Emplace_spare [Element T] {h : Heap T} {v : Vector} {xs : List T}
    (hM : Models h v xs) (k : Nat) (x : T) (hk : k < v.size_) (hc : v.size_ < v.Capacity) :
    Models (Vector.Emplace h v (v.begin.add k) x).1 (Vector.Emplace h v (v.begin.add k) x).2.1
      (xs.take k ++ [x] ++ xs.drop k) ∧
    (Vector.Emplace h v (v.begin.add k) x).2.1.data_ = v.data_ ∧
    (Vector.Emplace h v (v.begin.add k) x).2.2 = v.begin.add k ∧
    (Vector.Emplace h v (v.begin.add k) x).1.next = h.next := by
  have hin := hM.inside
  have hsome := hM.slot_isSome
  have hnone := hM.slot_none
  obtain ⟨⟨⟨b, o⟩, cap⟩, sz⟩ := v
  obtain ⟨h1, h2, h3, h4, h5, h6, h7, h8⟩ := hM
  simp only [Vector.Capacity, RawMemory.Capacity] at hk hc h2 h3 h4 h5 h6 h7 h8 hin hsome hnone
  subst h4
  have hks : ¬ (k = sz) := by omega
  have hlen : (xs.take k ++ [x] ++ xs.drop k).length = sz + 1 := by simp; omega
  simp only [Vector.Emplace, Vector.end, Vector.begin, Vector.Capacity, RawMemory.Capacity,
    RawMemory.GetAddress, RawMemory.plus, Ptr.add, Ptr.sub, Ptr.diff, Ptr.mk.injEq, true_and, hks,
    if_false, gt_iff_lt, hc, if_true, Nat.zero_add, Nat.sub_zero]
  rw [move_construct_eq2 (p := ⟨b, sz - 1⟩) (q := ⟨b, sz⟩) (hin (sz - 1) (by omega))
    (hin sz hc) (hsome (sz - 1) (by omega)) (hnone sz (le_refl _) hc)]
  dsimp only
  by_cases hlast : sz - 1 - k = 0
  · rw [hlast]
    simp only [move_backward]
    obtain ⟨y, hy⟩ := Option.isSome_iff_exists.mp (hsome (sz - 1) (by omega))
    rw [assign_value_eq (p := ⟨b, k⟩) (y := Element.moved_from y) x
      (by simpa using hin k (by omega))
      (by
        have e2 : k = sz - 1 := by omega
        simp [e2, hy])]
    refine ⟨?_, rfl⟩
    unfold Models
    dsimp only
    refine ⟨h1, hlen.symm, by omega, rfl, h5, h6, h7, ?_⟩
    intro i hi
    rw [← insert_slots x k (by omega) h3 h8 i]
    simp only [Heap.write_slot, true_and]
    split_ifs <;>
      first | rfl | (exfalso; omega) | (congr 1 <;> omega) | (congr 2 <;> omega) |
        (rw [hnone i (by omega) hi])
  · obtain ⟨m, hm⟩ : ∃ m, sz - 1 - k = m + 1 := ⟨sz - 1 - k - 1, by omega⟩
    have e1 : sz - 1 = k + m + 1 := by omega
    have e2 : sz = k + m + 2 := by omega
    rw [hm]
    have hmb := move_backward_eq m
      ((h.write ⟨b, sz⟩ (h.slot b (sz - 1))).write ⟨b, sz - 1⟩
        (Option.map Element.moved_from (h.slot b (sz - 1)))) b k
      (fun i _ hi => by simpa using hin i (by omega))
      (fun i _ hi => by
        have := hsome i (by omega)
        obtain ⟨y, hy⟩ := Option.isSome_iff_exists.mp this
        obtain ⟨z, hz⟩ := Option.isSome_iff_exists.mp (hsome (sz - 1) (by omega))
        simp only [Heap.write_slot, true_and]
        split_ifs <;> simp [hy, hz])
    rw [← e1, ← e2] at hmb
    rw [hmb]
    obtain ⟨y, hy⟩ := Option.isSome_iff_exists.mp (hsome k (by omega))
    rw [assign_value_eq (p := ⟨b, k⟩) (y := Element.moved_from y) x
      (by simpa using hin k (by omega))
      (by
        have e3 : ¬ (k = sz - 1) := by omega
        have e4 : k ≤ k ∧ k < sz := by omega
        simp [e3, e4, hy, hks])]
    refine ⟨?_, rfl⟩
    unfold Models
    dsimp only
    refine ⟨h1, hlen.symm, by omega, rfl, h5, h6, h7, ?_⟩
    intro i hi
    rw [← insert_slots x k (by omega) h3 h8 i]
    simp only [Heap.write_slot, Heap.patch_slot, true_and]
    split_ifs <;>
      first | rfl | (exfalso; omega) | (congr 1 <;> omega) | (congr 2 <;> omega) |
        (rw [hnone i (by omega) hi])

theorem Vector.Emplace_full [Element T] {h : Heap T} {v : Vector} {xs : List T}
    (hM : Models h v xs) (k : Nat) (x : T) (hk : k < v.size_) (hc : v.Capacity = v.size_)
    (hfit : Fits T (v.size_ * 2)) :
    Models (Vector.Emplace h v (v.begin.add k) x).1 (Vector.Emplace h v (v.begin.add k) x).2.1
      (xs.take k ++ [x] ++ xs.drop k) ∧
    (Vector.Emplace h v (v.begin.add k) x).2.1.data_ =
      { buffer_ := ⟨h.next + 1, 0⟩, capacity_ := v.size_ * 2 } ∧
    (Vector.Emplace h v (v.begin.add k) x).2.2 = ⟨h.next + 1, k⟩ ∧
    (Vector.Emplace h v (v.begin.add k) x).1.next = h.next + 1 := by
  have hin := hM.inside
  have hsome := hM.slot_isSome
  obtain ⟨⟨⟨b, o⟩, cap⟩, sz⟩ := v
  obtain ⟨h1, h2, h3, h4, h5, h6, h7, h8⟩ := hM
  simp only [Vector.Capacity, RawMemory.Capacity] at hk hc h2 h3 h4 h5 h6 h7 h8 hin hsome
  subst h4
  have hc2 := hc.symm
  subst hc2
  have hks : ¬ (k = sz) := by omega
  have hsz0 : ¬ (sz = 0) := by omega
  have hlen : (xs.take k ++ [x] ++ xs.drop k).length = sz + 1 := by simp; omega
  have hn0 : sz * 2 ≠ 0 := by omega
  have hnb : b ≠ h.next + 1 := by omega
  have hnb2 : ¬ (h.next + 1 = b) := fun e => hnb e.symm
  obtain ⟨hb0, he⟩ := h7 hsz0
  simp only [Vector.Emplace, Vector.end, Vector.begin, Vector.Capacity, RawMemory.Capacity,
    RawMemory.GetAddress, RawMemory.plus, Ptr.add, Ptr.sub, Ptr.diff, Ptr.mk.injEq, true_and, hks,
    if_false, gt_iff_lt, lt_irrefl, hsz0, Nat.zero_add, Nat.sub_zero,
    RawMemory.create_snd h _ hn0, RawMemory.create_fst h _ hn0 hfit, RawMemory.Swap,
    RawMemory.destroy]
  rw [construct_at_eq (p := ⟨h.next + 1, k⟩) x (by simp [Heap.inside]; omega) (by simp)]
  rw [Vector.CopyOrMove_eq k _ b 0 (h.next + 1) 0 hnb]
  rotate_left
  · intro i _ hi
    have := hin i (by omega)
    simpa [Heap.inside, hnb] using this
  · intro i _ hi
    simp [Heap.inside]; omega
  · intro i _ hi
    simpa [hnb] using hsome i (by omega)
  · intro i _ hi
    have : ¬ (i = k) := by omega
    simp [this]
  rw [Vector.CopyOrMove_eq (sz - k) _ b k (h.next + 1) (k + 1) hnb]
  rotate_left
  · intro i _ hi
    have := hin i (by omega)
    simpa [Heap.inside, hnb] using this
  · intro i _ hi
    simp [Heap.inside]; omega
  · intro i _ hi
    have e : ¬ (i < k) := by omega
    have := hsome i (by omega)
    simpa [hnb, e] using this
  · intro i _ hi
    have e1 : ¬ (i = k) := by omega
    have e2 : ¬ (0 ≤ i ∧ i < 0 + k) := by omega
    have e3 : ¬ (i < k) := by omega
    simp [e1, e2, e3, hnb2]
  rw [destroy_n_eq sz _ b 0]
  rotate_left
  · intro i _ hi
    have := hin i (by omega)
    simpa [Heap.inside, hnb] using this
  · intro i _ hi
    have := hsome i (by omega)
    obtain ⟨y, hy⟩ := Option.isSome_iff_exists.mp this
    simp only [Heap.patch_slot, Heap.write_slot, true_and, hnb, hnb2, false_and, if_false, hy]
    split_ifs <;> simp
  rw [RawMemory.Deallocate_eq _ b sz hb0 (by simpa [hnb] using he)]
  refine ⟨?_, rfl⟩
  unfold Models
  dsimp only
  refine ⟨h1, hlen.symm, by omega, rfl, by simp, fun e => absurd e hn0,
    fun _ => ⟨by simp, by simp [hnb2]⟩, ?_⟩
  intro i hi
  rw [← insert_slots x k (by omega) (le_of_eq h2.symm) h8 i]
  simp only [Heap.write_slot, Heap.patch_slot, true_and, hnb, hnb2, false_and, if_false]
  split_ifs <;>
    first | rfl | (exfalso; omega) | (congr 1 <;> omega) | (congr 2 <;> omega)

/-! ## `Resize` -/

theorem Vector.Resize_shrink [Element T] {h : Heap T} {v : Vector} {xs : List T}
    (hM : Models h v xs) (n : Nat) (hn : n < v.size_) :
    Models (Vector.Resize h v n).1 (Vector.Resize h v n).2 (xs.take n) ∧
    (Vector.Resize h v n).2.data_ = v.data_ ∧
    (Vector.Resize h v n).1.next = h.next := by
  have hin := hM.inside
  have hsome := hM.slot_isSome
  obtain ⟨⟨⟨b, o⟩, cap⟩, sz⟩ := v
  obtain ⟨h1, h2, h3, h4, h5, h6, h7, h8⟩ := hM
  simp only [] at hn h2 h3 h4 h5 h6 h7 h8 hin hsome
  subst h4
  simp only [Vector.Resize, hn, if_true, RawMemory.plus, Ptr.add, Nat.zero_add]
  rw [destroy_n_eq (sz - n) h b n (fun i _ hi => hin i (by omega))
    (fun i _ hi => hsome i (by omega))]
  refine ⟨?_, trivial, rfl⟩
  unfold Models
  dsimp only
  refine ⟨h1, by simp; omega, by simp; omega, rfl, h5, h6, h7, ?_⟩
  intro i hi
  simp only [Heap.patch_slot, true_and, List.getElem?_take]
  by_cases e1 : i < n
  · rw [if_neg (by omega), if_pos e1, h8 i hi]
  · rw [if_neg e1]
    by_cases e2 : i < sz
    · rw [if_pos (by omega)]
    · rw [if_neg (by omega), h8 i hi, List.getElem?_eq_none (by omega)]

theorem Models.value_construct_tail [Element T] {h : Heap T} {v : Vector} {xs : List T}
    (hM : Models h v xs) (n : Nat) (hn : v.size_ ≤ n) (hc : n ≤ v.data_.capacity_) :
    Models (uninitialized_value_construct_n h (v.data_.GetAddress.add v.size_) (n - v.size_))
      { v with size_ := n } (xs ++ List.replicate (n - v.size_) Element.value_init) := by
  have hin := hM.inside
  have hnone := hM.slot_none
  obtain ⟨⟨⟨b, o⟩, cap⟩, sz⟩ := v
  obtain ⟨h1, h2, h3, h4, h5, h6, h7, h8⟩ := hM
  simp only [] at hn hc h2 h3 h4 h5 h6 h7 h8 hin hnone
  subst h4
  simp only [RawMemory.GetAddress, Ptr.add, Nat.zero_add]
  rw [uninitialized_value_construct_n_eq (n - sz) h b sz (fun i _ hi => hin i (by omega))
    (fun i h1 hi => hnone i h1 (by omega))]
  unfold Models
  dsimp only
  refine ⟨h1, by simp; omega, by simp; omega, rfl, h5, h6, h7, ?_⟩
  intro i hi
  simp only [Heap.patch_slot, true_and, List.getElem?_append, List.getElem?_replicate]
  by_cases e1 : i < sz
  · have a1 : ¬ (sz ≤ i ∧ i < sz + (n - sz)) := by omega
    have a2 : i < xs.length := by omega
    rw [if_neg a1, if_pos a2, h8 i hi]
  · have a2 : ¬ (i < xs.length) := by omega
    rw [if_neg a2]
    by_cases e2 : i < n
    · have a1 : sz ≤ i ∧ i < sz + (n - sz) := by omega
      have a3 : i - xs.length < n - sz := by omega
      rw [if_pos a1, if_pos a3]
    · have a1 : ¬ (sz ≤ i ∧ i < sz + (n - sz)) := by omega
      have a3 : ¬ (i - xs.length < n - sz) := by omega
      rw [if_neg a1, if_neg a3, h8 i hi, List.getElem?_eq_none (by omega)]

theorem Vector.Resize_grow [Element T] {h : Heap T} {v : Vector} {xs : List T}
    (hM : Models h v xs) (n : Nat) (hn : v.size_ ≤ n)
    (hfit : n ≤ v.Capacity ∨ v.size_ = 0 ∨ n ≤ v.size_ * 2)
    (hrep : Fits T (if v.size_ = 0 then n else v.size_ * 2)) (hsum : v.size_ + n < 2 ^ 64) :
    Models (Vector.Resize h v n).1 (Vector.Resize h v n).2
      (xs ++ List.replicate (n - v.size_) Element.value_init) ∧
    (Vector.Resize h v n).2.Capacity =
      (if v.size_ + n > v.Capacity then
        max v.Capacity (if v.size_ = 0 then n else v.size_ * 2)
      else v.Capacity) := by
  have hlt : ¬ (n < v.size_) := by omega
  have hle : v.size_ ≤ v.Capacity := by
    have := hM.2.2.1
    have := hM.2.1
    simp only [Vector.Capacity, RawMemory.Capacity]; omega
  simp only [Vector.Resize, hlt, if_false, Nat.mod_eq_of_lt hsum]
  by_cases h2 : v.size_ + n > v.data_.Capacity
  · simp only [Vector.Capacity, h2, if_true]
    generalize ht : (if v.size_ = 0 then n else v.size_ * 2) = t at hrep
    by_cases h3 : t ≤ v.Capacity
    · rw [Vector.Reserve_noop h v t h3]
      have hc : n ≤ v.data_.capacity_ := by
        simp only [Vector.Capacity, RawMemory.Capacity] at *
        rw [← ht] at h3
        split_ifs at h3 <;> omega
      refine ⟨hM.value_construct_tail n hn hc, ?_⟩
      simp only [Vector.Capacity] at h3
      show v.data_.Capacity = _
      omega
    · obtain ⟨a, b⟩ := Vector.Reserve_grow hM t (by omega) hrep
      have hsz : (Vector.Reserve h v t).2.size_ = v.size_ := by rw [a.2.1, hM.2.1]
      have hc : n ≤ (Vector.Reserve h v t).2.data_.capacity_ := by
        rw [b]
        simp only [Vector.Capacity, RawMemory.Capacity] at *
        rw [← ht] at h3 ⊢
        split_ifs at h3 ⊢ <;> omega
      have := a.value_construct_tail n (by omega) hc
      rw [hsz]
      rw [hsz] at this
      refine ⟨this, ?_⟩
      show ((Vector.Reserve h v t).2.data_).Capacity = _
      rw [b]
      simp only [Vector.Capacity] at h3
      simp only [RawMemory.Capacity] at h3 ⊢
      omega
  · simp only [Vector.Capacity, h2, if_false]
    have hc : n ≤ v.data_.capacity_ := by
      simp only [Vector.Capacity, RawMemory.Capacity] at *
      omega
    exact ⟨hM.value_construct_tail n hn hc, trivial⟩

/-! ## Runs of operations -/

theorem Vector.PushBack_spec [Element T] {h : Heap T} {v : Vector} {xs : List T}
    (hM : Models h v xs) (x : T) (hfit : Fits T (2 * v.size_)) :
    Models (Vector.PushBack h v x).1 (Vector.PushBack h v x).2 (xs ++ [x]) := by
  have hle : v.size_ ≤ v.Capacity := by
    obtain ⟨_, h2, h3, _⟩ := hM
    simp only [Vector.Capacity, RawMemory.Capacity]; omega
  by_cases hc : v.Capacity = v.size_
  · exact (Vector.EmplaceBack_full hM x hc hfit.grown).1
  · exact (Vector.EmplaceBack_spare hM x (by omega)).1

theorem Heap.Frame.refl (P : Nat → Prop) (h : Heap T) : Heap.Frame P h h :=
  ⟨le_refl _, fun _ _ => ⟨rfl, rfl⟩⟩

theorem Heap.Frame.trans {P : Nat → Prop} {h1 h2 h3 : Heap T} (a : Heap.Frame P h1 h2)
    (b : Heap.Frame P h2 h3) : Heap.Frame P h1 h3 :=
  ⟨le_trans a.1 b.1, fun c hc =>
    ⟨(b.2 c hc).1.trans (a.2 c hc).1, (b.2 c hc).2.trans (a.2 c hc).2⟩⟩

theorem Heap.Frame.raise (P : Nat → Prop) (h : Heap T) : Heap.Frame P h h.raise :=
  ⟨le_refl _, fun _ _ => ⟨rfl, rfl⟩⟩

theorem Heap.Frame.write {P : Nat → Prop} (h : Heap T) (p : Ptr) (c : Option T)
    (hp : P p.block) : Heap.Frame P h (h.write p c) := by
  refine ⟨le_refl _, fun d hd => ⟨rfl, ?_⟩⟩
  funext i
  have : ¬ (d = p.block) := fun e => hd (e ▸ hp)
  simp [this]

theorem Heap.Frame.construct_at {P : Nat → Prop} (h : Heap T) (p : Ptr) (x : T)
    (hp : P p.block) : Heap.Frame P h (construct_at h p x) := by
  unfold AdvancedVector.construct_at
  split_ifs
  · split
    · exact Heap.Frame.write h p _ hp
    · exact Heap.Frame.raise P h
  · exact Heap.Frame.raise P h

theorem Heap.Frame.destroy_at {P : Nat → Prop} (h : Heap T) (p : Ptr)
    (hp : P p.block) : Heap.Frame P h (destroy_at h p) := by
  unfold AdvancedVector.destroy_at
  split
  · exact Heap.Frame.write h p _ hp
  · exact Heap.Frame.raise P h

theorem Heap.Frame.copy_construct {P : Nat → Prop} (h : Heap T) (p q : Ptr)
    (hq : P q.block) : Heap.Frame P h (copy_construct h p q) := by
  unfold AdvancedVector.copy_construct
  split
  · exact Heap.Frame.construct_at h q _ hq
  · exact Heap.Frame.raise P h

theorem Heap.Frame.move_construct [Element T] {P : Nat → Prop} (h : Heap T) (p q : Ptr)
    (hp : P p.block) (hq : P q.block) : Heap.Frame P h (move_construct h p q) := by
  unfold AdvancedVector.move_construct
  split
  · exact (Heap.Frame.construct_at h q _ hq).trans (Heap.Frame.write _ p _ hp)
  · exact Heap.Frame.raise P h

theorem Heap.Frame.move_assign [Element T] {P : Nat → Prop} (h : Heap T) (p q : Ptr)
    (hp : P p.block) (hq : P q.block) : Heap.Frame P h (move_assign h p q) := by
  unfold AdvancedVector.move_assign
  split
  · exact (Heap.Frame.write h q _ hq).trans (Heap.Frame.write _ p _ hp)
  · exact Heap.Frame.raise P h

theorem Heap.Frame.assign_value {P : Nat → Prop} (h : Heap T) (p : Ptr) (x : T)
    (hp : P p.block) : Heap.Frame P h (assign_value h p x) := by
  unfold AdvancedVector.assign_value
  split
  · exact Heap.Frame.write h p _ hp
  · exact Heap.Frame.raise P h

theorem Heap.Frame.destroy_n {P : Nat → Prop} (n : Nat) : ∀ (h : Heap T) (p : Ptr),
    P p.block → Heap.Frame P h (destroy_n h p n) := by
  induction n with
  | zero => intro h p _; exact Heap.Frame.refl P h
  | succ n ih =>
    intro h p hp
    exact (Heap.Frame.destroy_at h p hp).trans (ih _ (p.add 1) hp)

theorem Heap.Frame.uninitialized_value_construct_n [Element T] {P : Nat → Prop} (n : Nat) :
    ∀ (h : Heap T) (p : Ptr), P p.block →
      Heap.Frame P h (uninitialized_value_construct_n h p n) := by
  induction n with
  | zero => intro h p _; exact Heap.Frame.refl P h
  | succ n ih =>
    intro h p hp
    exact (Heap.Frame.construct_at h p _ hp).trans (ih _ (p.add 1) hp)

theorem Heap.Frame.uninitialized_copy_n {P : Nat → Prop} (n : Nat) :
    ∀ (h : Heap T) (p q : Ptr), P q.block → Heap.Frame P h (uninitialized_copy_n h p n q) := by
  induction n with
  | zero => intro h p q _; exact Heap.Frame.refl P h
  | succ n ih =>
    intro h p q hq
    exact (Heap.Frame.copy_construct h p q hq).trans (ih _ (p.add 1) (q.add 1) hq)

theorem Heap.Frame.uninitialized_move_n [Element T] {P : Nat → Prop} (n : Nat) :
    ∀ (h : Heap T) (p q : Ptr), P p.block → P q.block →
      Heap.Frame P h (uninitialized_move_n h p n q) := by
  induction n with
  | zero => intro h p q _ _; exact Heap.Frame.refl P h
  | succ n ih =>
    intro h p q hp hq
    exact (Heap.Frame.move_construct h p q hp hq).trans (ih _ (p.add 1) (q.add 1) hp hq)

theorem Heap.Frame.move_range [Element T] {P : Nat → Prop} (n : Nat) :
    ∀ (h : Heap T) (p q : Ptr), P p.block → P q.block →
      Heap.Frame P h (move_range h p n q) := by
  induction n with
  | zero => intro h p q _ _; exact Heap.Frame.refl P h
  | succ n ih =>
    intro h p q hp hq
    exact (Heap.Frame.move_assign h p q hp hq).trans (ih _ (p.add 1) (q.add 1) hp hq)

theorem Heap.Frame.move_backward [Element T] {P : Nat → Prop} (n : Nat) :
    ∀ (h : Heap T) (p q : Ptr), P p.block → P q.block →
      Heap.Frame P h (move_backward h p n q) := by
  induction n with
  | zero => intro h p q _ _; exact Heap.Frame.refl P h
  | succ n ih =>
    intro h p q hp hq
    exact (Heap.Frame.move_assign h (p.sub 1) (q.sub 1) hp hq).trans
      (ih _ (p.sub 1) (q.sub 1) hp hq)

theorem Heap.Frame.CopyOrMove [Element T] {P : Nat → Prop} (n : Nat) (h : Heap T) (p q : Ptr)
    (hp : P p.block) (hq : P q.block) : Heap.Frame P h (Vector.CopyOrMove h p n q) := by
  unfold Vector.CopyOrMove
  split_ifs
  · exact Heap.Frame.uninitialized_move_n n h p q hp hq
  · exact Heap.Frame.uninitialized_copy_n n h p q hq

theorem Heap.Frame.create [Element T] {P : Nat → Prop} (h : Heap T) (n : Nat)
    (hP : ∀ c, h.next < c → P c) : Heap.Frame P h (RawMemory.create h n).1 := by
  unfold RawMemory.create RawMemory.Allocate operator_new
  split_ifs with hn
  · refine ⟨Nat.le_succ _, fun c hc => ?_⟩
    have : ¬ (c = h.next + 1) := fun e => hc (hP c (by omega))
    refine ⟨by simp [this], ?_⟩
    funext i
    simp [this]
  · exact Heap.Frame.refl P h

theorem RawMemory.create_block [Element T] (h : Heap T) (n : Nat) :
    (RawMemory.create h n).2.buffer_.block = 0 ∨
      (RawMemory.create h n).2.buffer_.block = h.next + 1 := by
  unfold RawMemory.create RawMemory.Allocate operator_new
  split_ifs
  · right; rfl
  · left; rfl

theorem Heap.Frame.Deallocate {P : Nat → Prop} (h : Heap T) (p : Ptr) (hp : P p.block) :
    Heap.Frame P h (RawMemory.Deallocate h p) := by
  unfold RawMemory.Deallocate
  split_ifs
  · exact Heap.Frame.refl P h
  · refine ⟨le_refl _, fun c hc => ⟨?_, rfl⟩⟩
    have : ¬ (c = p.block) := fun e => hc (e ▸ hp)
    simp [this]
  · exact Heap.Frame.raise P h

theorem touched_later (b n c : Nat) (hc : n < c) : touched b n c := Or.inr (Or.inr hc)

theorem touched_create [Element T] (h : Heap T) (b n : Nat) :
    touched b h.next (RawMemory.create h n).2.buffer_.block := by
  rcases RawMemory.create_block h n with e | e
  · exact Or.inl e
  · exact Or.inr (Or.inr (by omega))

theorem Models.frame {P : Nat → Prop} {h1 h2 : Heap T} {v : Vector} {xs : List T}
    (hM : Models h1 v xs) (hF : Heap.Frame P h1 h2)
    (hP : v.data_.capacity_ ≠ 0 → ¬ P v.data_.buffer_.block)
    (hf : h2.fault = false) : Models h2 v xs := by
  obtain ⟨_, h2', h3, h4, h5, h6, h7, h8⟩ := hM
  refine ⟨hf, h2', h3, h4, le_trans h5 hF.1, h6, fun hc => ?_, fun i hi => ?_⟩
  · rw [(hF.2 _ (hP hc)).1]; exact h7 hc
  · rw [(hF.2 _ (hP (by omega))).2]; exact h8 i hi

theorem Vector.ctor_copy_spec [Element T] {h : Heap T} {v : Vector} {xs : List T}
    (hM : Models h v xs) (hfit : Fits T v.size_) :
    Models (Vector.ctor_copy h v).1 (Vector.ctor_copy h v).2 xs ∧
    Models (Vector.ctor_copy h v).1 v xs ∧
    (Vector.ctor_copy h v).2.data_.capacity_ = v.size_ ∧
    (v.data_.capacity_ ≠ 0 →
      (Vector.ctor_copy h v).2.data_.buffer_.block ≠ v.data_.buffer_.block) ∧
    ((Vector.ctor_copy h v).2.data_.capacity_ ≠ 0 →
      v.data_.buffer_.block ≠ (Vector.ctor_copy h v).2.data_.buffer_.block) := by
  have hin := hM.inside
  have hsome := hM.slot_isSome
  have hM0 := hM
  obtain ⟨⟨⟨b, o⟩, cap⟩, sz⟩ := v
  obtain ⟨h1, h2, h3, h4, h5, h6, h7, h8⟩ := hM
  simp only [] at h2 h3 h4 h5 h6 h7 h8 hin hsome
  subst h4
  by_cases hs : sz = 0
  · subst hs
    have hx : xs = [] := List.length_eq_zero.mp h2.symm
    subst hx
    simp only [Vector.ctor_copy, RawMemory.create_zero, Vector.CopyOrMove_const,
      uninitialized_copy_n]
    refine ⟨?_, hM0, trivial, ?_, fun e => absurd rfl e⟩
    · exact ⟨h1, rfl, le_refl _, rfl, Nat.zero_le _, fun _ => rfl, fun e => absurd rfl e,
        fun i hi => absurd hi (Nat.not_lt_zero _)⟩
    · intro hc e
      exact (h7 hc).1 e.symm
  · have hnb : b ≠ h.next + 1 := by omega
    have hnb2 : ¬ (h.next + 1 = b) := fun e => hnb e.symm
    have hcap : cap ≠ 0 := by omega
    obtain ⟨hb0, he⟩ := h7 hcap
    simp only [Vector.ctor_copy, RawMemory.create_snd h sz hs, RawMemory.create_fst h sz hs hfit,
      Vector.CopyOrMove_const, RawMemory.GetAddress]
    rw [uninitialized_copy_n_eq sz _ b 0 (h.next + 1) 0 hnb]
    rotate_left
    · intro i _ hi
      have := hin i (by omega)
      simpa [Heap.inside, hnb] using this
    · intro i _ hi
      simp [Heap.inside]; omega
    · intro i _ hi
      simpa [hnb] using hsome i (by omega)
    · intro i _ hi
      simp
    refine ⟨?_, ?_, trivial, fun _ => hnb2, fun _ => hnb⟩
    · unfold Models
      dsimp only
      refine ⟨h1, h2, by omega, rfl, by simp, fun e => absurd e hs,
        fun _ => ⟨by simp, by simp⟩, ?_⟩
      intro i hi
      have e0 : 0 ≤ i ∧ i < 0 + sz := by omega
      simp only [Heap.patch_slot, true_and, if_pos e0, hnb, if_false]
      rw [← h8 i (by omega)]
      congr 1
      omega
    · unfold Models
      dsimp only
      refine ⟨h1, h2, h3, rfl, by simp; omega, h6, fun _ => ⟨hb0, by simp [hnb, he]⟩, ?_⟩
      intro i hi
      simp only [Heap.patch_slot, hnb, false_and, if_false]
      exact h8 i hi

/-! ## Destructor, swap, move construction -/

theorem Vector.destroy_spec {h : Heap T} {v : Vector} {xs : List T} (hM : Models h v xs) :
    (Vector.destroy h v).fault = false ∧
    (Vector.destroy h v).next = h.next ∧
    Heap.Frame (fun c => c = v.data_.buffer_.block) h (Vector.destroy h v) ∧
    (∀ i, i < v.data_.capacity_ → (Vector.destroy h v).slot v.data_.buffer_.block i = none) ∧
    (v.data_.capacity_ ≠ 0 → (Vector.destroy h v).extent v.data_.buffer_.block = none) := by
  have hin := hM.inside
  have hsome := hM.slot_isSome
  have hnone := hM.slot_none
  obtain ⟨⟨⟨b, o⟩, cap⟩, sz⟩ := v
  obtain ⟨h1, h2, h3, h4, h5, h6, h7, h8⟩ := hM
  simp only [] at h2 h3 h4 h5 h6 h7 h8 hin hsome hnone
  subst h4
  have hF : Heap.Frame (fun c => c = b) h
      (Vector.destroy h ⟨⟨⟨b, 0⟩, cap⟩, sz⟩) :=
    (Heap.Frame.destroy_n (P := fun c => c = b) sz h ⟨b, 0⟩ rfl).trans
      (Heap.Frame.Deallocate (P := fun c => c = b) _ ⟨b, 0⟩ rfl)
  refine ⟨?_, ?_, hF, ?_, ?_⟩
  all_goals
    simp only [Vector.destroy, RawMemory.destroy, RawMemory.GetAddress]
    rw [destroy_n_eq sz h b 0 (fun i _ hi => hin i (by omega))
      (fun i _ hi => hsome i (by omega))]
    by_cases hc : cap = 0
    · have hb0 : b = 0 := h6 hc
      subst hb0
      rw [RawMemory.Deallocate_null _ 0 rfl]
      first
        | exact h1
        | rfl
        | (intro i hi; omega)
        | (intro e; exact absurd hc e)
    · obtain ⟨hb0, he⟩ := h7 hc
      rw [RawMemory.Deallocate_eq _ b cap hb0 (by simpa using he)]
      first
        | exact h1
        | rfl
        | (intro i hi
           simp only [Heap.patch_slot, true_and]
           by_cases e : 0 ≤ i ∧ i < 0 + sz
           · rw [if_pos e]
           · rw [if_neg e]; exact hnone i (by omega) hi)
        | (intro _; simp)

theorem Vector.ctor_move_spec {h : Heap T} {v : Vector} {xs : List T} (hM : Models h v xs) :
    (Vector.ctor_move v).1 = v ∧
    (Vector.ctor_move v).2 = { data_ := { buffer_ := nullptr, capacity_ := 0 }, size_ := 0 } ∧
    Models h (Vector.ctor_move v).2 [] := by
  refine ⟨rfl, rfl, ?_⟩
  exact ⟨hM.1, rfl, le_refl _, rfl, Nat.zero_le _, fun _ => rfl, fun e => absurd rfl e,
    fun i hi => absurd hi (Nat.not_lt_zero _)⟩

/-! ## Insertion followed by erasure; capacity under repeated pushes -/

theorem Vector.Emplace_spec [Element T] {h : Heap T} {v : Vector} {xs : List T}
    (hM : Models h v xs) (k : Nat) (hk : k ≤ v.size_) (x : T) (hfit : Fits T (2 * v.size_)) :
    Models (Vector.Emplace h v (v.begin.add k) x).1 (Vector.Emplace h v (v.begin.add k) x).2.1
      (xs.take k ++ [x] ++ xs.drop k) ∧
    (Vector.Emplace h v (v.begin.add k) x).2.2 =
      (Vector.Emplace h v (v.begin.add k) x).2.1.begin.add k ∧
    v.data_.capacity_ ≤ (Vector.Emplace h v (v.begin.add k) x).2.1.data_.capacity_ := by
  have hsz : v.size_ = xs.length := hM.2.1
  have hcap : v.size_ ≤ v.Capacity := by
    have := hM.2.2.1
    simp only [Vector.Capacity, RawMemory.Capacity]; omega
  by_cases hend : k = v.size_
  · subst hend
    rw [Vector.Emplace_end]
    have e : xs.take v.size_ ++ [x] ++ xs.drop v.size_ = xs ++ [x] := by
      rw [hsz]; simp
    rw [e]
    refine ⟨Vector.PushBack_spec hM x hfit, rfl, ?_⟩
    dsimp only
    by_cases hc : v.Capacity = v.size_
    · rw [(Vector.EmplaceBack_full hM x hc hfit.grown).2.1]
      simp only [Vector.Capacity, RawMemory.Capacity] at hc
      dsimp only
      split_ifs <;> omega
    · rw [(Vector.EmplaceBack_spare hM x (by omega)).2.1]
  · by_cases hc : v.Capacity = v.size_
    · obtain ⟨a, b, c, _⟩ := Vector.Emplace_full hM k x (by omega) hc hfit.twice
      refine ⟨a, ?_, ?_⟩
      · rw [c]
        show _ = ((Vector.Emplace h v (v.begin.add k) x).2.1.data_).buffer_.add k
        rw [b]
        simp [Ptr.add]
      · rw [b]
        simp only [Vector.Capacity, RawMemory.Capacity] at hc
        dsimp only
        omega
    · obtain ⟨a, b, c, _⟩ := Vector.Emplace_spare hM k x (by omega) (by omega)
      refine ⟨a, ?_, ?_⟩
      · rw [c]
        show _ = ((Vector.Emplace h v (v.begin.add k) x).2.1.data_).buffer_.add k
        rw [b]
        rfl
      · rw [b]

theorem take_insert_drop_erase (xs : List T) (x : T) (k : Nat) (hk : k ≤ xs.length) :
    (xs.take k ++ [x] ++ xs.drop k).take k ++ (xs.take k ++ [x] ++ xs.drop k).drop (k + 1) = xs := by
  apply List.ext_getElem?
  intro i
  rw [getElem?_erase, getElem?_insert xs x k i hk, getElem?_insert xs x k (i + 1) hk]
  by_cases e1 : i < k
  · rw [if_pos e1, if_pos e1]
  · have e2 : ¬ (i + 1 < k) := by omega
    have e3 : ¬ (i + 1 = k) := by omega
    rw [if_neg e1, if_neg e2, if_neg e3]
    rfl

/-! ## Copy assignment -/

theorem copy_assign_eq2 {h : Heap T} {p q : Ptr}
    (hp : h.inside p = true) (hq : h.inside q = true)
    (hx : (h.slot p.block p.off).isSome = true) (hy : (h.slot q.block q.off).isSome = true) :
    copy_assign h p q = h.write q (h.slot p.block p.off) := by
  obtain ⟨x, hx⟩ := Option.isSome_iff_exists.mp hx
  obtain ⟨y, hy⟩ := Option.isSome_iff_exists.mp hy
  simp [copy_assign, Heap.read_of hp, Heap.read_of hq, hx, hy]

theorem assign_loop_eq (n : Nat) : ∀ (h : Heap T) (sb slo db dlo : Nat),
    sb ≠ db →
    (∀ i, slo ≤ i → i < slo + n → h.inside ⟨sb, i⟩ = true) →
    (∀ i, dlo ≤ i → i < dlo + n → h.inside ⟨db, i⟩ = true) →
    (∀ i, slo ≤ i → i < slo + n → (h.slot sb i).isSome = true) →
    (∀ i, dlo ≤ i → i < dlo + n → (h.slot db i).isSome = true) →
    assign_loop h ⟨sb, slo⟩ ⟨db, dlo⟩ n =
      h.patch db dlo (dlo + n) (fun i => h.slot sb (slo + (i - dlo))) := by
  induction n with
  | zero => intro h sb slo db dlo _ _ _ _ _; simp [assign_loop, Heap.patch_empty]
  | succ n ih =>
    intro h sb slo db dlo hne his hid hs hd
    have h1 := copy_assign_eq2 (p := ⟨sb, slo⟩) (q := ⟨db, dlo⟩)
      (his slo (le_refl _) (by omega)) (hid dlo (le_refl _) (by omega))
      (hs slo (le_refl _) (by omega)) (hd dlo (le_refl _) (by omega))
    rw [assign_loop, h1]
    simp only [Ptr.add]
    rw [ih _ sb (slo + 1) db (dlo + 1) hne]
    · apply Heap.ext_fields <;> try rfl
      funext d i
      simp only [Heap.patch_slot, Heap.write_slot]
      split_ifs <;>
        first | rfl | (exfalso; omega) | (congr 1 <;> omega) | (congr 2 <;> omega)
    · intro i hi1 hi2
      simpa using his i (by omega) (by omega)
    · intro i hi1 hi2
      simpa using hid i (by omega) (by omega)
    · intro i hi1 hi2
      simp only [Heap.write_slot, hne, false_and, if_false]
      exact hs i (by omega) (by omega)
    · intro i hi1 hi2
      have : ¬ (i = dlo) := by omega
      simp only [Heap.write_slot, this, and_false, if_false]
      exact hd i (by omega) (by omega)

theorem Vector.ctor_copy_frame [Element T] (h : Heap T) (v : Vector) :
    Heap.Frame (touched 0 h.next) h (Vector.ctor_copy h v).1 := by
  unfold Vector.ctor_copy Vector.CopyOrMove_const
  exact (Heap.Frame.create h v.size_ (touched_later _ _)).trans
    (Heap.Frame.uninitialized_copy_n v.size_ _ _ _ (touched_create h 0 v.size_))

theorem Vector.ctor_copy_block [Element T] (h : Heap T) (v : Vector) :
    (Vector.ctor_copy h v).2.data_.buffer_.block = 0 ∨
      (Vector.ctor_copy h v).2.data_.buffer_.block = h.next + 1 :=
  RawMemory.create_block h v.size_

theorem Models.empty_of {h : Heap T} {v : Vector} {xs : List T} (hM : Models h v xs)
    (k : Heap T) (hk : k.fault = false) (hs : v.size_ = 0) (hc : v.data_.capacity_ = 0) :
    Models k v [] := by
  obtain ⟨_, h2, h3, h4, h5, h6, h7, h8⟩ := hM
  refine ⟨hk, hs, by simp, h4, ?_, h6, fun e => absurd hc e, fun i hi => ?_⟩
  · rw [h6 hc]; exact Nat.zero_le _
  · omega

theorem Vector.assign_copy_realloc [Element T] {h : Heap T} {a b : Vector} {xs ys : List T}
    (ha : Models h a xs) (hb : Models h b ys)
    (hdis : a.data_.capacity_ ≠ 0 → b.data_.capacity_ ≠ 0 →
      a.data_.buffer_.block ≠ b.data_.buffer_.block)
    (hgt : b.size_ > a.Capacity) (hfit : Fits T b.size_) :
    Models (Vector.assign_copy h a (Operand.other b)).1
      (Vector.assign_copy h a (Operand.other b)).2 ys ∧
    Models (Vector.assign_copy h a (Operand.other b)).1 b ys ∧
    (Vector.assign_copy h a (Operand.other b)).2.data_.capacity_ = b.size_ := by
  have e : Vector.assign_copy h a (Operand.other b) =
      (Vector.destroy (Vector.ctor_copy h b).1 a, (Vector.ctor_copy h b).2) := by
    simp only [Vector.assign_copy, hgt, if_true]
    rfl
  rw [e]
  obtain ⟨c1, c2, c3, c4, c5⟩ := Vector.ctor_copy_spec hb hfit
  have hF := Vector.ctor_copy_frame h b
  have ha1 : Models (Vector.ctor_copy h b).1 a xs := by
    refine ha.frame hF ?_ c1.1
    intro hc ht
    have h5 := ha.2.2.2.2.1
    have h7 := (ha.2.2.2.2.2.2.1 hc).1
    rcases ht with e | e | e
    · exact h7 e
    · exact h7 e
    · omega
  obtain ⟨d1, d2, d3, d4, d5⟩ := Vector.destroy_spec ha1
  have hab : b.data_.capacity_ ≠ 0 → ¬ (b.data_.buffer_.block = a.data_.buffer_.block) := by
    intro hbc e
    by_cases hac : a.data_.capacity_ = 0
    · have := ha.2.2.2.2.2.1 hac
      exact (hb.2.2.2.2.2.2.1 hbc).1 (e.trans this)
    · exact hdis hac hbc e.symm
  have hca : (Vector.ctor_copy h b).2.data_.capacity_ ≠ 0 →
      ¬ ((Vector.ctor_copy h b).2.data_.buffer_.block = a.data_.buffer_.block) := by
    intro hcc e
    have hnz := (c1.2.2.2.2.2.2.1 hcc).1
    have h5 := ha.2.2.2.2.1
    rcases Vector.ctor_copy_block h b with e0 | e1
    · exact hnz e0
    · omega
  exact ⟨c1.frame d3 hca d1, c2.frame d3 hab d1, c3⟩

theorem Vector.assign_copy_inplace [Element T] {h : Heap T} {a b : Vector} {xs ys : List T}
    (ha : Models h a xs) (hb : Models h b ys)
    (hdis : a.data_.capacity_ ≠ 0 → b.data_.capacity_ ≠ 0 →
      a.data_.buffer_.block ≠ b.data_.buffer_.block)
    (hle : b.size_ ≤ a.Capacity) :
    Models (Vector.assign_copy h a (Operand.other b)).1
      (Vector.assign_copy h a (Operand.other b)).2 ys ∧
    Models (Vector.assign_copy h a (Operand.other b)).1 b ys ∧
    (Vector.assign_copy h a (Operand.other b)).2.data_ = a.data_ := by
  have hina := ha.inside
  have hsomea := ha.slot_isSome
  have hnonea := ha.slot_none
  have hinb := hb.inside
  have hsomeb := hb.slot_isSome
  have hb0 := hb
  obtain ⟨⟨⟨vb, o⟩, cap⟩, sz⟩ := a
  obtain ⟨⟨⟨rb, ro⟩, rcap⟩, rs⟩ := b
  obtain ⟨h1, h2, h3, h4, h5, h6, h7, h8⟩ := ha
  obtain ⟨g1, g2, g3, g4, g5, g6, g7, g8⟩ := hb
  simp only [Vector.Capacity, RawMemory.Capacity] at hle hdis
  simp only [] at h2 h3 h4 h5 h6 h7 h8 hina hsomea hnonea
  simp only [] at g2 g3 g4 g5 g6 g7 g8 hinb hsomeb
  subst h4
  subst g4
  have hng : ¬ (rs > cap) := by omega
  simp only [Vector.assign_copy, Vector.Capacity, RawMemory.Capacity, hng, if_false,
    RawMemory.plus, Ptr.add, Nat.zero_add, Nat.add_zero]
  -- the two buffers differ unless both arrays are empty with no buffer
  have hcase : (sz = 0 ∧ rs = 0) ∨ rb ≠ vb := by
    by_cases e : rb = vb
    · left
      by_cases hc : cap = 0
      · omega
      · by_cases hrc : rcap = 0
        · have := g6 hrc
          have := (h7 hc).1
          omega
        · exact absurd e.symm (hdis hc hrc)
    · right; exact e
  rcases hcase with ⟨hs0, hr0⟩ | hne
  · subst hs0
    subst hr0
    have hx : xs = [] := List.length_eq_zero.mp h2.symm
    have hy : ys = [] := List.length_eq_zero.mp g2.symm
    subst hx
    subst hy
    simp only [lt_irrefl, if_false, assign_loop, Nat.sub_self, uninitialized_copy_n]
    exact ⟨⟨h1, rfl, h3, rfl, h5, h6, h7, h8⟩, hb0, trivial⟩
  · have hne2 : ¬ (vb = rb) := fun e => hne e.symm
    by_cases hlt : rs < sz
    · simp only [hlt, if_true]
      rw [assign_loop_eq rs h rb 0 vb 0 hne (fun i _ hi => hinb i (by omega))
        (fun i _ hi => hina i (by omega)) (fun i _ hi => hsomeb i (by omega))
        (fun i _ hi => hsomea i (by omega))]
      rw [destroy_n_eq (sz - rs) _ vb rs (fun i _ hi => by simpa using hina i (by omega))
        (fun i hi1 hi => by
          have e : ¬ (0 ≤ i ∧ i < 0 + rs) := by omega
          simp only [Heap.patch_slot, true_and, if_neg e]
          exact hsomea i (by omega))]
      refine ⟨?_, ?_, trivial⟩
      · unfold Models
        dsimp only
        refine ⟨h1, g2, by omega, rfl, h5, h6, h7, ?_⟩
        intro i hi
        simp only [Heap.patch_slot, true_and]
        by_cases e1 : i < rs
        · have a1 : ¬ (rs ≤ i ∧ i < rs + (sz - rs)) := by omega
          have a2 : 0 ≤ i ∧ i < 0 + rs := by omega
          rw [if_neg a1, if_pos a2, ← g8 i (by omega)]
          congr 1
          omega
        · by_cases e2 : i < sz
          · have a1 : rs ≤ i ∧ i < rs + (sz - rs) := by omega
            rw [if_pos a1, List.getElem?_eq_none (by omega)]
          · have a1 : ¬ (rs ≤ i ∧ i < rs + (sz - rs)) := by omega
            have a2 : ¬ (0 ≤ i ∧ i < 0 + rs) := by omega
            rw [if_neg a1, if_neg a2, hnonea i (by omega) hi, List.getElem?_eq_none (by omega)]
      · unfold Models
        dsimp only
        refine ⟨h1, g2, g3, rfl, g5, g6, g7, ?_⟩
        intro i hi
        simp only [Heap.patch_slot, hne, false_and, if_false]
        exact g8 i hi
    · simp only [hlt, if_false]
      rw [assign_loop_eq sz h rb 0 vb 0 hne (fun i _ hi => hinb i (by omega))
        (fun i _ hi => hina i (by omega)) (fun i _ hi => hsomeb i (by omega))
        (fun i _ hi => hsomea i (by omega))]
      rw [uninitialized_copy_n_eq (rs - sz) _ rb sz vb sz hne
        (fun i _ hi => by simpa using hinb i (by omega))
        (fun i _ hi => by simpa using hina i (by omega))
        (fun i _ hi => by
          simp only [Heap.patch_slot, hne, false_and, if_false]
          exact hsomeb i (by omega))
        (fun i hi1 hi => by
          have e : ¬ (0 ≤ i ∧ i < 0 + sz) := by omega
          simp only [Heap.patch_slot, true_and, if_neg e]
          exact hnonea i (by omega) (by omega))]
      refine ⟨?_, ?_, trivial⟩
      · unfold Models
        dsimp only
        refine ⟨h1, g2, by omega, rfl, h5, h6, h7, ?_⟩
        intro i hi
        simp only [Heap.patch_slot, true_and, hne, false_and, if_false]
        by_cases e1 : i < sz
        · have a1 : ¬ (sz ≤ i ∧ i < sz + (rs - sz)) := by omega
          have a2 : 0 ≤ i ∧ i < 0 + sz := by omega
          rw [if_neg a1, if_pos a2, ← g8 i (by omega)]
          congr 1
          omega
        · by_cases e2 : i < rs
          · have a1 : sz ≤ i ∧ i < sz + (rs - sz) := by omega
            rw [if_pos a1, ← g8 i (by omega)]
            congr 1
            omega
          · have a1 : ¬ (sz ≤ i ∧ i < sz + (rs - sz)) := by omega
            have a2 : ¬ (0 ≤ i ∧ i < 0 + sz) := by omega
            rw [if_neg a1, if_neg a2, hnonea i (by omega) hi, List.getElem?_eq_none (by omega)]
      · unfold Models
        dsimp only
        refine ⟨h1, g2, g3, rfl, g5, g6, g7, ?_⟩
        intro i hi
        simp only [Heap.patch_slot, hne, false_and, if_false]
        exact g8 i hi

/-! ## Throwing constructors: the transfer loop -/

theorem copy_calls_add (T : Type) [Element T] (m n : Nat) :
    copy_calls T (m + n) = copy_calls T m + copy_calls T n := by
  unfold copy_calls; split_ifs <;> omega

/-! ## Throwing constructors: `Reserve` -/

theorem Vector.EmplaceBack_fields [Element T] (h : Heap T) (v : Vector) (x : T) :
    (Vector.EmplaceBack h v x).2.1.size_ = v.size_ + 1 ∧
    (Vector.EmplaceBack h v x).2.1.data_ =
      (if v.Capacity = v.size_ then
        { buffer_ := ⟨h.next + 1, 0⟩, capacity_ := if v.size_ = 0 then 1 else v.size_ * 2 }
      else v.data_) ∧
    (Vector.EmplaceBack h v x).2.2 =
      (Vector.EmplaceBack h v x).2.1.data_.buffer_.add v.size_ := by
  have hn0 : (if v.size_ = 0 then 1 else v.size_ * 2) ≠ 0 := by split_ifs <;> omega
  unfold Vector.EmplaceBack
  by_cases hc : v.Capacity = v.size_
  · simp only [hc, if_true, RawMemory.create_snd h _ hn0, RawMemory.Swap, RawMemory.plus,
      Nat.add_sub_cancel]
    exact ⟨trivial, trivial, trivial⟩
  · simp only [hc, if_false, RawMemory.plus, Nat.add_sub_cancel]
    exact ⟨trivial, trivial, trivial⟩

theorem Vector.PushBack_fields [Element T] (h : Heap T) (v : Vector) (x : T) :
    (Vector.PushBack h v x).2.size_ = v.size_ + 1 ∧
    (Vector.PushBack h v x).2.data_ =
      (if v.Capacity = v.size_ then
        { buffer_ := ⟨h.next + 1, 0⟩, capacity_ := if v.size_ = 0 then 1 else v.size_ * 2 }
      else v.data_) :=
  ⟨(Vector.EmplaceBack_fields h v x).1, (Vector.EmplaceBack_fields h v x).2.1⟩

theorem Vector.Emplace_fields [Element T] (h : Heap T) (v : Vector) (k : Nat) (x : T)
    (hk : k ≤ v.size_) (hle : v.size_ ≤ v.Capacity) :
    (Vector.Emplace h v (v.begin.add k) x).2.1.size_ = v.size_ + 1 ∧
    (Vector.Emplace h v (v.begin.add k) x).2.1.data_ =
      (if v.Capacity = v.size_ then
        { buffer_ := ⟨h.next + 1, 0⟩, capacity_ := if v.size_ = 0 then 1 else v.size_ * 2 }
      else v.data_) ∧
    (Vector.Emplace h v (v.begin.add k) x).2.2 =
      (Vector.Emplace h v (v.begin.add k) x).2.1.data_.buffer_.add k := by
  by_cases hend : k = v.size_
  · subst hend
    rw [Vector.Emplace_end]
    exact ⟨(Vector.EmplaceBack_fields h v x).1, (Vector.EmplaceBack_fields h v x).2.1, rfl⟩
  · have hks : ¬ (v.begin.add k = v.end) := by
      intro e
      have := congrArg Ptr.off e
      simp only [Vector.begin, Vector.end, RawMemory.GetAddress, RawMemory.plus, Ptr.add] at this
      omega
    have hd : (v.begin.add k).diff v.begin = k := by
      simp [Ptr.diff, Ptr.add]
    have hs0 : ¬ (v.size_ = 0) := by omega
    have hn0 : v.size_ * 2 ≠ 0 := by omega
    unfold Vector.Emplace
    by_cases hc : v.Capacity = v.size_
    · have hgt : ¬ (v.Capacity > v.size_) := by omega
      simp only [hks, if_false, hc, gt_iff_lt, lt_irrefl, if_true, hs0,
        RawMemory.create_snd h _ hn0, RawMemory.Swap, RawMemory.plus, hd]
      exact ⟨trivial, trivial, by simp [Ptr.add]⟩
    · have hgt : v.Capacity > v.size_ := by omega
      simp only [hks, if_false, hgt, hc, if_true, RawMemory.plus, hd]
      exact ⟨trivial, trivial, trivial⟩

theorem Vector.Erase_fields [Element T] (h : Heap T) (v : Vector) (pos : Ptr) :
    (Vector.Erase h v pos).2.1 = { v with size_ := v.size_ - 1 } ∧
    (Vector.Erase h v pos).2.2 = v.data_.buffer_.add (pos.diff v.begin) :=
  ⟨rfl, rfl⟩

theorem Vector.PushBack_doubling [Element T] (h : Heap T) (v : Vector) (x : T)
    (hle : v.size_ ≤ v.data_.capacity_)
    (hI : (v.size_ = 0 ∧ v.data_.capacity_ = 0) ∨
      ∃ k, v.data_.capacity_ = 2 ^ k ∧ v.data_.capacity_ < 2 * v.size_) :
    (Vector.PushBack h v x).2.size_ ≤ (Vector.PushBack h v x).2.data_.capacity_ ∧
    ∃ k, (Vector.PushBack h v x).2.data_.capacity_ = 2 ^ k ∧
      (Vector.PushBack h v x).2.data_.capacity_ < 2 * (Vector.PushBack h v x).2.size_ := by
  obtain ⟨hs, hd⟩ := Vector.PushBack_fields h v x
  rw [hs, hd]
  by_cases hc : v.Capacity = v.size_
  · rw [if_pos hc]
    dsimp only
    simp only [Vector.Capacity, RawMemory.Capacity] at hc
    rcases hI with ⟨h0, _⟩ | ⟨k, hk1, hk2⟩
    · exact ⟨by simp [h0], 0, by simp [h0], by simp [h0]⟩
    · have hpos : 0 < 2 ^ k := Nat.two_pow_pos k
      have hne : ¬ (v.size_ = 0) := by omega
      refine ⟨by rw [if_neg hne]; omega, k + 1, ?_, ?_⟩
      · rw [if_neg hne, pow_succ, ← hk1, hc]
      · rw [if_neg hne]; omega
  · rw [if_neg hc]
    simp only [Vector.Capacity, RawMemory.Capacity] at hc
    rcases hI with ⟨h0, h1⟩ | ⟨k, hk1, hk2⟩
    · omega
    · exact ⟨by omega, k, hk1, by omega⟩

theorem Vector.pushAll_doubling [Element T] (ys : List T) :
    ∀ (h : Heap T) (v : Vector), v.size_ ≤ v.data_.capacity_ →
      ((v.size_ = 0 ∧ v.data_.capacity_ = 0) ∨
        ∃ k, v.data_.capacity_ = 2 ^ k ∧ v.data_.capacity_ < 2 * v.size_) →
      (Vector.pushAll h v ys).2.size_ = v.size_ + ys.length ∧
      (Vector.pushAll h v ys).2.size_ ≤ (Vector.pushAll h v ys).2.data_.capacity_ ∧
      ((ys = [] ∧ (Vector.pushAll h v ys).2 = v) ∨
        ∃ k, (Vector.pushAll h v ys).2.data_.capacity_ = 2 ^ k ∧
          (Vector.pushAll h v ys).2.data_.capacity_ < 2 * (Vector.pushAll h v ys).2.size_) := by
  induction ys with
  | nil => intro h v hle _; exact ⟨rfl, hle, Or.inl ⟨rfl, rfl⟩⟩
  | cons y ys ih =>
    intro h v hle hI
    obtain ⟨hle2, hD⟩ := Vector.PushBack_doubling h v y hle hI
    obtain ⟨a, b, c⟩ := ih (Vector.PushBack h v y).1 (Vector.PushBack h v y).2 hle2 (Or.inr hD)
    simp only [Vector.pushAll]
    refine ⟨?_, b, Or.inr ?_⟩
    · rw [a, (Vector.PushBack_fields h v y).1, List.length_cons]; omega
    · rcases c with ⟨e1, e2⟩ | c
      · rw [e2]; exact hD
      · exact c

theorem Vector.assign_copy_fields [Element T] (h : Heap T) (a b : Vector) :
    (Vector.assign_copy h a (Operand.other b)).2.size_ = b.size_ ∧
    (b.size_ > a.Capacity →
      (Vector.assign_copy h a (Operand.other b)).2.data_.capacity_ = b.size_) ∧
    (b.size_ ≤ a.Capacity → (Vector.assign_copy h a (Operand.other b)).2.data_ = a.data_) := by
  unfold Vector.assign_copy
  by_cases hgt : b.size_ > a.Capacity
  · have hle : ¬ (b.size_ ≤ a.Capacity) := by omega
    simp only [hgt, if_true, hle, false_implies, true_implies, and_true]
    exact ⟨rfl, rfl⟩
  · have hle : b.size_ ≤ a.Capacity := by omega
    simp only [hgt, if_false, hle, false_implies, true_implies, true_and]

/-! ## Main results -/

/-- C1 (defect in `Resize`): on `Vector<Nat>(1)`, a well-formed array of size 1
and capacity 1, `Resize(3)` calls `Reserve(size_ * 2)` = `Reserve(2)` and then
sets `size_` to 3: afterwards `Size()` is 3 and `Capacity()` is 2, so
`Size() <= Capacity()` fails, and the call has constructed outside its block. -/
theorem resize_size_exceeds_capacity :
    Models sampleSized1.1 sampleSized1.2 [0] ∧
    (Vector.Resize sampleSized1.1 sampleSized1.2 3).2.Size = 3 ∧
    (Vector.Resize sampleSized1.1 sampleSized1.2 3).2.Capacity = 2 ∧
    ¬ ((Vector.Resize sampleSized1.1 sampleSized1.2 3).2.Size ≤
        (Vector.Resize sampleSized1.1 sampleSized1.2 3).2.Capacity) ∧
    (Vector.Resize sampleSized1.1 sampleSized1.2 3).1.fault = true := by
  decide

/-- C3: on a well-formed array holding `xs`, for every index `k` with
`k <= Size()`, `Emplace(begin() + k, x)` (and `Insert`, which forwards to it)
leaves an array of size `Size() + 1` and returns the position `begin() + k` of
the new array.  When the array is one a 64-bit machine can hold (its elements
occupy fewer than `2^63` bytes, so that the byte count of the doubled capacity
does not wrap), the call runs without undefined behaviour and the new array is
well formed and holds `take k xs ++ [x] ++ drop k xs`.  This covers the three
branches of the code (`pos == end()`, spare capacity, reallocation). -/
theorem emplace_inserts_at_position [Element T] (h : Heap T) (v : Vector) (xs : List T)
    (hM : Models h v xs) (k : Nat) (hk : k ≤ v.Size) (x : T) :
    (Fits T (2 * v.Size) →
      Models (Vector.Emplace h v (v.begin.add k) x).1 (Vector.Emplace h v (v.begin.add k) x).2.1
        (xs.take k ++ [x] ++ xs.drop k) ∧
      Vector.toList (Vector.Emplace h v (v.begin.add k) x).1
        (Vector.Emplace h v (v.begin.add k) x).2.1 = (xs.take k ++ [x] ++ xs.drop k).map some) ∧
    (Vector.Emplace h v (v.begin.add k) x).2.1.Size = v.Size + 1 ∧
    (Vector.Emplace h v (v.begin.add k) x).2.2 =
      (Vector.Emplace h v (v.begin.add k) x).2.1.begin.add k ∧
    Vector.Insert h v (v.begin.add k) x = Vector.Emplace h v (v.begin.add k) x := by
  have hcap : v.size_ ≤ v.Capacity := by
    have := hM.2.2.1
    have := hM.2.1
    simp only [Vector.Capacity, RawMemory.Capacity]; omega
  simp only [Vector.Size] at hk ⊢
  obtain ⟨f1, _, f3⟩ := Vector.Emplace_fields h v k x hk hcap
  refine ⟨fun hfit => ?_, f1, f3, rfl⟩
  have a := (Vector.Emplace_spec hM k hk x hfit).1
  exact ⟨a, a.toList⟩

theorem emplace_inserts_at_position_witness :
    Models sample134.1 sample134.2 [1, 3, 4] ∧
    Vector.toList (Vector.Insert sample134.1 sample134.2 (sample134.2.begin.add 1) 9).1
      (Vector.Insert sample134.1 sample134.2 (sample134.2.begin.add 1) 9).2.1
      = [some 1, some 9, some 3, some 4] ∧
    (Vector.Insert sample134.1 sample134.2 (sample134.2.begin.add 1) 9).2.1.Size = 4 :=
  ⟨by decide,
    ((emplace_inserts_at_position sample134.1 sample134.2 [1, 3, 4]
      (by decide) 1 (by decide) 9).1 (by decide)).2,
    (emplace_inserts_at_position sample134.1 sample134.2 [1, 3, 4]
      (by decide) 1 (by decide) 9).2.1⟩

/-- C4: on a well-formed array holding `xs`, for every index `k` with
`k < Size()`, `Erase(begin() + k)` runs without undefined behaviour and leaves
a well-formed array holding `xs` without its element at index `k` (the others
in order), of size `Size() - 1`, in the same buffer with the same capacity,
and returns `begin() + k`, which is `end()` of the new array when the last
element was erased. -/
theorem erase_removes_at_position [Element T] (h : Heap T) (v : Vector) (xs : List T)
    (hM : Models h v xs) (k : Nat) (hk : k < v.Size) :
    Models (Vector.Erase h v (v.begin.add k)).1 (Vector.Erase h v (v.begin.add k)).2.1
      (xs.eraseIdx k) ∧
    Vector.toList (Vector.Erase h v (v.begin.add k)).1 (Vector.Erase h v (v.begin.add k)).2.1
      = (xs.take k ++ xs.drop (k + 1)).map some ∧
    (Vector.Erase h v (v.begin.add k)).2.1.Size = v.Size - 1 ∧
    (Vector.Erase h v (v.begin.add k)).2.1.Capacity = v.Capacity ∧
    (Vector.Erase h v (v.begin.add k)).2.1.data_.buffer_ = v.data_.buffer_ ∧
    (Vector.Erase h v (v.begin.add k)).2.2 = (Vector.Erase h v (v.begin.add k)).2.1.begin.add k ∧
    (k = v.Size - 1 →
      (Vector.Erase h v (v.begin.add k)).2.2 = (Vector.Erase h v (v.begin.add k)).2.1.end) := by
  simp only [Vector.Size] at hk ⊢
  obtain ⟨a, b, c, _⟩ := Vector.Erase_spec hM k hk
  have hsz : v.size_ = xs.length := hM.2.1
  have hbeg : (Vector.Erase h v (v.begin.add k)).2.1.begin = v.begin := by
    show ((Vector.Erase h v (v.begin.add k)).2.1.data_).buffer_ = v.data_.buffer_
    rw [b]
  have hsize : (Vector.Erase h v (v.begin.add k)).2.1.size_ = v.size_ - 1 := by
    rw [a.2.1, hsz]; simp; omega
  refine ⟨?_, a.toList, hsize, ?_, ?_, ?_, ?_⟩
  · rw [List.eraseIdx_eq_take_drop_succ]; exact a
  · show ((Vector.Erase h v (v.begin.add k)).2.1.data_).capacity_ = v.data_.capacity_
    rw [b]
  · rw [b]
  · rw [c, hbeg]
  · intro hlast
    rw [c]
    show _ = ((Vector.Erase h v (v.begin.add k)).2.1.data_).buffer_.add
      (Vector.Erase h v (v.begin.add k)).2.1.size_
    rw [b, hsize, ← hlast]
    rfl

theorem erase_removes_at_position_witness :
    Models sample1234.1 sample1234.2 [1, 2, 3, 4] ∧
    Vector.toList (Vector.Erase sample1234.1 sample1234.2 (sample1234.2.begin.add 1)).1
      (Vector.Erase sample1234.1 sample1234.2 (sample1234.2.begin.add 1)).2.1
      = [some 1, some 3, some 4] ∧
    (Vector.Erase sample1234.1 sample1234.2 (sample1234.2.begin.add 1)).2.1.Size = 3 :=
  ⟨by decide,
    (erase_removes_at_position sample1234.1 sample1234.2 [1, 2, 3, 4] (by decide) 1
      (by decide)).2.1,
    (erase_removes_at_position sample1234.1 sample1234.2 [1, 2, 3, 4] (by decide) 1
      (by decide)).2.2.1⟩

/-- C5 (as stated, refuted) where the byte count of the request wraps: on
`[1, 3, 4]` (4-byte elements, capacity 4) the call `Reserve(2^62)` asks
`operator new` for `2^62 * 4 mod 2^64` = 0 bytes, sets the capacity to `2^62`
over a block without a single slot and transfers the three elements to
addresses outside that block, which is undefined behaviour; the array no longer
holds `[1, 3, 4]`. -/
theorem reserve_wrapped_request_loses_elements :
    Models sample134.1 sample134.2 [1, 3, 4] ∧
    sample134.2.Capacity < 2 ^ 62 ∧
    ¬ Fits Nat (2 ^ 62) ∧
    (Vector.Reserve sample134.1 sample134.2 (2 ^ 62)).2.Capacity = 2 ^ 62 ∧
    (Vector.Reserve sample134.1 sample134.2 (2 ^ 62)).1.extent
      (Vector.Reserve sample134.1 sample134.2 (2 ^ 62)).2.data_.buffer_.block = some 0 ∧
    (Vector.Reserve sample134.1 sample134.2 (2 ^ 62)).1.fault = true ∧
    Vector.toList (Vector.Reserve sample134.1 sample134.2 (2 ^ 62)).1
      (Vector.Reserve sample134.1 sample134.2 (2 ^ 62)).2 = [none, none, none] ∧
    ¬ Models (Vector.Reserve sample134.1 sample134.2 (2 ^ 62)).1
      (Vector.Reserve sample134.1 sample134.2 (2 ^ 62)).2 [1, 3, 4] := by
  decide

/-- C5 (amended): on a well-formed array holding `xs` with capacity `c`,
`Reserve(n)` returns the heap and the array unchanged when `n <= c`; when
`n > c` and the byte count `n * sizeof(T)` of the request is a `size_t` value
(`hfit`), the capacity becomes exactly `n`; in both cases the call runs without
undefined behaviour and the array still holds exactly `xs`, with the same size
and the same elements at the indices `0 .. Size() - 1`. -/
theorem reserve_keeps_elements [Element T] (h : Heap T) (v : Vector) (xs : List T)
    (hM : Models h v xs) (n : Nat) (hfit : v.Capacity < n → Fits T n) :
    (n ≤ v.Capacity → Vector.Reserve h v n = (h, v)) ∧
    (v.Capacity < n → (Vector.Reserve h v n).2.Capacity = n) ∧
    Models (Vector.Reserve h v n).1 (Vector.Reserve h v n).2 xs ∧
    (Vector.Reserve h v n).2.Size = v.Size ∧
    Vector.toList (Vector.Reserve h v n).1 (Vector.Reserve h v n).2 = Vector.toList h v := by
  have hmod : Models (Vector.Reserve h v n).1 (Vector.Reserve h v n).2 xs := by
    by_cases hn : n ≤ v.Capacity
    · rw [Vector.Reserve_noop h v n hn]; exact hM
    · exact (Vector.Reserve_grow hM n (by omega) (hfit (by omega))).1
  refine ⟨Vector.Reserve_noop h v n, ?_, hmod, ?_, ?_⟩
  · intro hn
    show ((Vector.Reserve h v n).2.data_).capacity_ = n
    rw [(Vector.Reserve_grow hM n hn (hfit hn)).2]
  · show (Vector.Reserve h v n).2.size_ = v.size_
    rw [hmod.2.1, hM.2.1]
  · rw [hmod.toList, hM.toList]

theorem reserve_keeps_elements_witness :
    Models sample134.1 sample134.2 [1, 3, 4] ∧
    (Vector.Reserve sample134.1 sample134.2 10).2.Capacity = 10 ∧
    Vector.toList (Vector.Reserve sample134.1 sample134.2 10).1
      (Vector.Reserve sample134.1 sample134.2 10).2 = [some 1, some 3, some 4] :=
  ⟨by decide,
    (reserve_keeps_elements sample134.1 sample134.2 [1, 3, 4] (by decide) 10
      (fun _ => by decide)).2.1 (by decide),
    (reserve_keeps_elements sample134.1 sample134.2 [1, 3, 4] (by decide) 10
      (fun _ => by decide)).2.2.2.2⟩

/-- C7: on a well-formed array holding `xs` with size `s` and capacity `c`,
`EmplaceBack(x)` leaves an array of size `s + 1` and returns a reference to the
slot at index `s` of the new array; when `s < c` the capacity stays `c`, and
when `s == c` the new capacity is 1 for `s == 0` and `2 * s` otherwise, which
is `max (s + 1) (2 * s)`.  `Emplace` at an index below the size follows the
same capacity rule when `s == c`.  When the array is one a 64-bit machine can
hold (its elements occupy fewer than `2^63` bytes, so that the byte count of
the doubled capacity does not wrap), the call runs without undefined behaviour,
the new array is well formed and holds `xs ++ [x]` (indices `0 .. s - 1`
unchanged), and `x` lives in the slot at index `s`. -/
theorem emplace_back_growth [Element T] (h : Heap T) (v : Vector) (xs : List T)
    (hM : Models h v xs) (x : T) :
    (Fits T (2 * v.Size) →
      Models (Vector.EmplaceBack h v x).1 (Vector.EmplaceBack h v x).2.1 (xs ++ [x]) ∧
      Vector.at (Vector.EmplaceBack h v x).1 (Vector.EmplaceBack h v x).2.1 v.Size = some x) ∧
    (Vector.EmplaceBack h v x).2.1.Size = v.Size + 1 ∧
    (Vector.EmplaceBack h v x).2.2 = (Vector.EmplaceBack h v x).2.1.begin.add v.Size ∧
    (v.Size < v.Capacity → (Vector.EmplaceBack h v x).2.1.Capacity = v.Capacity) ∧
    (v.Size = v.Capacity →
      (Vector.EmplaceBack h v x).2.1.Capacity = (if v.Size = 0 then 1 else 2 * v.Size) ∧
      (Vector.EmplaceBack h v x).2.1.Capacity = max (v.Size + 1) (2 * v.Size)) ∧
    (∀ k, k < v.Size → v.Size = v.Capacity →
      (Vector.Emplace h v (v.begin.add k) x).2.1.Capacity =
        (if v.Size = 0 then 1 else 2 * v.Size) ∧
      (Vector.Emplace h v (v.begin.add k) x).2.1.Capacity = max (v.Size + 1) (2 * v.Size)) := by
  have hsz : v.size_ = xs.length := hM.2.1
  have hle : v.size_ ≤ v.Capacity := by
    have := hM.2.2.1
    simp only [Vector.Capacity, RawMemory.Capacity]; omega
  simp only [Vector.Size]
  obtain ⟨f1, f2, f3⟩ := Vector.EmplaceBack_fields h v x
  refine ⟨fun hfit => ?_, f1, f3, ?_, ?_, ?_⟩
  · have hmod : Models (Vector.EmplaceBack h v x).1 (Vector.EmplaceBack h v x).2.1 (xs ++ [x]) :=
      Vector.PushBack_spec hM x hfit
    refine ⟨hmod, ?_⟩
    have hl := hmod.toList
    have e := congrArg (fun l => l[v.size_]?) hl
    simp only [Vector.toList, List.getElem?_map] at e
    rw [List.getElem?_range (by omega)] at e
    simp only [Option.map_some'] at e
    rw [hsz] at e
    simp only [List.getElem?_append_right (le_refl _), Nat.sub_self, List.getElem?_cons_zero,
      Option.map_some'] at e
    rw [hsz]
    exact Option.some.inj e
  · intro hc
    have hne : ¬ (v.Capacity = v.size_) := by omega
    show ((Vector.EmplaceBack h v x).2.1.data_).capacity_ = v.data_.capacity_
    rw [f2, if_neg hne]
  · intro hc
    have e : ((Vector.EmplaceBack h v x).2.1.data_).capacity_ =
        if v.size_ = 0 then 1 else 2 * v.size_ := by
      rw [f2, if_pos hc.symm]; dsimp only; split_ifs <;> omega
    refine ⟨e, ?_⟩
    show ((Vector.EmplaceBack h v x).2.1.data_).capacity_ = _
    rw [e]; split_ifs <;> omega
  · intro k hk hc
    obtain ⟨_, g2, _⟩ := Vector.Emplace_fields h v k x (by omega) hle
    have e : ((Vector.Emplace h v (v.begin.add k) x).2.1.data_).capacity_ =
        if v.size_ = 0 then 1 else 2 * v.size_ := by
      rw [g2, if_pos hc.symm]; dsimp only; split_ifs <;> omega
    refine ⟨e, ?_⟩
    show ((Vector.Emplace h v (v.begin.add k) x).2.1.data_).capacity_ = _
    rw [e]; split_ifs <;> omega

theorem emplace_back_growth_witness :
    Models sample1234.1 sample1234.2 [1, 2, 3, 4] ∧
    (Vector.EmplaceBack sample1234.1 sample1234.2 5).2.1.Size = 5 ∧
    Vector.at (Vector.EmplaceBack sample1234.1 sample1234.2 5).1
      (Vector.EmplaceBack sample1234.1 sample1234.2 5).2.1 4 = some 5 ∧
    (Vector.EmplaceBack sample1234.1 sample1234.2 5).2.1.Capacity = 8 :=
  ⟨by decide,
    (emplace_back_growth sample1234.1 sample1234.2 [1, 2, 3, 4] (by decide) 5).2.1,
    ((emplace_back_growth sample1234.1 sample1234.2 [1, 2, 3, 4] (by decide) 5).1
      (by decide)).2,
    ((emplace_back_growth sample1234.1 sample1234.2 [1, 2, 3, 4] (by decide) 5).2.2.2.2.1
      (by decide)).1⟩

/-- C8 (defect in `Resize`): the capacity `Resize` ends with is not the
growth-policy value.  On `Vector<Nat>(1)` (size 1, capacity 1) `Resize(3)`
reserves `size_ * 2` = 2 and ends with capacity 2, below the requested 3 and
below `max 3 (2 * 1)`; on `[1, 3, 4]` (size 3, capacity 4) `Resize(4)` fits the
capacity, but `size_ + new_size > Capacity()` holds and the call reallocates to
capacity 6. -/
theorem resize_capacity_off_policy :
    Models sampleSized1.1 sampleSized1.2 [0] ∧
    (Vector.Resize sampleSized1.1 sampleSized1.2 3).2.Capacity = 2 ∧
    ¬ (3 ≤ (Vector.Resize sampleSized1.1 sampleSized1.2 3).2.Capacity) ∧
    (Vector.Resize sampleSized1.1 sampleSized1.2 3).2.Capacity ≠ max 3 (2 * 1) ∧
    Models sample134.1 sample134.2 [1, 3, 4] ∧
    sample134.2.Capacity = 4 ∧
    (Vector.Resize sample134.1 sample134.2 4).2.Capacity = 6 := by
  decide

/-- C9 (defect in `Resize`): on `Vector<Nat>(1)` (size 1, capacity 1)
`Resize(3)` reserves 2 slots and value-constructs at the offsets 1 and 2: the
second construction is outside the block, which is undefined behaviour; the
block holds two live elements, not the three that `Size()` reports. -/
theorem resize_constructs_outside_block :
    Models sampleSized1.1 sampleSized1.2 [0] ∧
    (Vector.Resize sampleSized1.1 sampleSized1.2 3).1.fault = true ∧
    (Vector.Resize sampleSized1.1 sampleSized1.2 3).2.Size = 3 ∧
    Vector.toList (Vector.Resize sampleSized1.1 sampleSized1.2 3).1
      (Vector.Resize sampleSized1.1 sampleSized1.2 3).2 = [some 0, some 0, none] ∧
    ¬ Models (Vector.Resize sampleSized1.1 sampleSized1.2 3).1
      (Vector.Resize sampleSized1.1 sampleSized1.2 3).2 [0, 0, 0] := by
  decide

/-- C12: move construction from a well-formed array `src` holding `xs` yields
a destination with the very fields of `src` (its buffer, capacity and size),
which therefore holds `xs` in the same slots of the same block, and leaves
`src` with size 0, capacity 0 and a null buffer; the constructor does not take
the heap at all, so no element is constructed, copied or destroyed. -/
theorem move_construction_steals_buffer (h : Heap T) (src : Vector) (xs : List T)
    (hM : Models h src xs) :
    (Vector.ctor_move src).1.data_.buffer_ = src.data_.buffer_ ∧
    (Vector.ctor_move src).1.Size = src.Size ∧
    (Vector.ctor_move src).1.Capacity = src.Capacity ∧
    Models h (Vector.ctor_move src).1 xs ∧
    Vector.toList h (Vector.ctor_move src).1 = Vector.toList h src ∧
    (Vector.ctor_move src).2.Size = 0 ∧
    (Vector.ctor_move src).2.Capacity = 0 ∧
    (Vector.ctor_move src).2.data_.buffer_ = nullptr ∧
    Models h (Vector.ctor_move src).2 [] := by
  obtain ⟨a, b, c⟩ := Vector.ctor_move_spec hM
  refine ⟨by rw [a], by rw [a], by rw [a], by rw [a]; exact hM, by rw [a], ?_, ?_, ?_, c⟩
  · rw [b]; rfl
  · rw [b]; rfl
  · rw [b]

theorem move_construction_steals_buffer_witness :
    Models sample134.1 sample134.2 [1, 3, 4] ∧
    Vector.toList sample134.1 (Vector.ctor_move sample134.2).1 = [some 1, some 3, some 4] ∧
    (Vector.ctor_move sample134.2).1.Capacity = 4 ∧
    (Vector.ctor_move sample134.2).2.Size = 0 ∧
    (Vector.ctor_move sample134.2).2.Capacity = 0 :=
  ⟨by decide,
    (move_construction_steals_buffer sample134.1 sample134.2 [1, 3, 4] (by decide)).2.2.2.2.1,
    (move_construction_steals_buffer sample134.1 sample134.2 [1, 3, 4] (by decide)).2.2.1,
    (move_construction_steals_buffer sample134.1 sample134.2 [1, 3, 4] (by decide)).2.2.2.2.2.1,
    (move_construction_steals_buffer sample134.1 sample134.2 [1, 3, 4]
      (by decide)).2.2.2.2.2.2.1⟩

/-- C13: for two well-formed arrays `a` (holding `xs`) and `b` (holding `ys`)
that are distinct objects with distinct buffers and `b.Size() > a.Capacity()`,
the move assignment `a = std::move(b)` runs without undefined behaviour; `a`
ends with the fields `b` had (its buffer, capacity and size) and so holds `ys`;
`b` is left with size 0, capacity 0 and a null buffer; every slot of the former
block of `a` has been destroyed (none is destroyed twice, which would be
undefined behaviour) and the block is released. -/
theorem move_assignment_adopts_buffer (h : Heap T) (a b : Vector) (xs ys : List T)
    (ha : Models h a xs) (hb : Models h b ys)
    (hdis : a.data_.capacity_ ≠ 0 → a.data_.buffer_.block ≠ b.data_.buffer_.block)
    (hgt : b.Size > a.Capacity) :
    (Vector.assign_move h a (Operand.other b)).2.1 = b ∧
    Models (Vector.assign_move h a (Operand.other b)).1
      (Vector.assign_move h a (Operand.other b)).2.1 ys ∧
    Vector.toList (Vector.assign_move h a (Operand.other b)).1
      (Vector.assign_move h a (Operand.other b)).2.1 = Vector.toList h b ∧
    (Vector.assign_move h a (Operand.other b)).2.2.Size = 0 ∧
    (Vector.assign_move h a (Operand.other b)).2.2.Capacity = 0 ∧
    (Vector.assign_move h a (Operand.other b)).2.2.data_.buffer_ = nullptr ∧
    Models (Vector.assign_move h a (Operand.other b)).1
      (Vector.assign_move h a (Operand.other b)).2.2 [] ∧
    (Vector.assign_move h a (Operand.other b)).1.fault = false ∧
    (∀ i, i < a.Capacity →
      (Vector.assign_move h a (Operand.other b)).1.slot a.data_.buffer_.block i = none) ∧
    (a.Capacity ≠ 0 →
      (Vector.assign_move h a (Operand.other b)).1.extent a.data_.buffer_.block = none) := by
  simp only [Vector.Size, Vector.Capacity, RawMemory.Capacity] at hgt ⊢
  have hbc : b.data_.capacity_ ≠ 0 := by
    have := hb.2.1
    have := hb.2.2.1
    omega
  have hbb : b.data_.buffer_.block ≠ 0 := (hb.2.2.2.2.2.2.1 hbc).1
  have hab : a.data_.buffer_.block ≠ b.data_.buffer_.block := by
    by_cases hc : a.data_.capacity_ = 0
    · rw [ha.2.2.2.2.2.1 hc]; exact fun e => hbb e.symm
    · exact hdis hc
  have e : Vector.assign_move h a (Operand.other b) =
      (Vector.destroy h a, b,
        { data_ := { buffer_ := nullptr, capacity_ := 0 }, size_ := 0 }) := by
    simp only [Vector.assign_move, Vector.Capacity, RawMemory.Capacity, gt_iff_lt, hgt, if_true]
    rfl
  rw [e]
  obtain ⟨d1, d2, d3, d4, d5⟩ := Vector.destroy_spec ha
  have hbM : Models (Vector.destroy h a) b ys :=
    hb.frame d3 (fun _ e => hab e.symm) d1
  refine ⟨rfl, hbM, by rw [hbM.toList, hb.toList], rfl, rfl, rfl, ?_, d1, d4, d5⟩
  exact ⟨d1, rfl, le_refl _, rfl, Nat.zero_le _, fun _ => rfl, fun e => absurd rfl e,
    fun i hi => absurd hi (Nat.not_lt_zero _)⟩

theorem move_assignment_adopts_buffer_witness :
    Models sampleTwo.1 sampleTwo.2 [0] ∧ Models sampleTwo.1 sample134.2 [1, 3, 4] ∧
    Vector.toList (Vector.assign_move sampleTwo.1 sampleTwo.2 (Operand.other sample134.2)).1
      (Vector.assign_move sampleTwo.1 sampleTwo.2 (Operand.other sample134.2)).2.1
      = [some 1, some 3, some 4] ∧
    (Vector.assign_move sampleTwo.1 sampleTwo.2 (Operand.other sample134.2)).2.2.Size = 0 :=
  ⟨by decide, by decide,
    (move_assignment_adopts_buffer sampleTwo.1 sampleTwo.2 sample134.2 [0] [1, 3, 4]
      (by decide) (by decide) (by decide) (by decide)).2.2.1,
    (move_assignment_adopts_buffer sampleTwo.1 sampleTwo.2 sample134.2 [0] [1, 3, 4]
      (by decide) (by decide) (by decide) (by decide)).2.2.2.1⟩

/-- C14: when `b.Size() <= a.Capacity()` the move assignment `a = std::move(b)`
does nothing: the heap, `a` and `b` come back exactly as they were; the same
holds for the self-move `a = std::move(a)`. -/
theorem move_assignment_without_transfer (h : Heap T) (a b : Vector)
    (hle : b.Size ≤ a.Capacity) :
    Vector.assign_move h a (Operand.other b) = (h, a, b) ∧
    Vector.assign_move h a Operand.self = (h, a, a) := by
  simp only [Vector.Size] at hle
  have : ¬ (b.size_ > a.Capacity) := by omega
  exact ⟨by simp only [Vector.assign_move, this, if_false], rfl⟩

theorem move_assignment_without_transfer_witness :
    Vector.ctor_default.Size ≤ Vector.ctor_default.Capacity ∧
    Vector.assign_move (Heap.empty Nat) Vector.ctor_default (Operand.other Vector.ctor_default) =
      (Heap.empty Nat, Vector.ctor_default, Vector.ctor_default) ∧
    sample134.2.Size ≤ sample1234.2.Capacity ∧
    (Vector.assign_move sample1234.1 sample1234.2 (Operand.other sample134.2)).2.1 =
      sample1234.2 :=
  ⟨by decide,
    (move_assignment_without_transfer (Heap.empty Nat) Vector.ctor_default Vector.ctor_default
      (by decide)).1,
    by decide,
    congrArg (fun r => r.2.1)
      (move_assignment_without_transfer sample1234.1 sample1234.2 sample134.2 (by decide)).1⟩

/-- C17 (as stated, refuted): move-assigning a source of capacity 3 to a target
that owns a block of capacity 2 leaves the source with the target's former
block and capacity 2, not with a null buffer and capacity 0. -/
theorem rawmemory_move_assign_source_not_empty :
    (RawMemory.move_assign { buffer_ := ⟨1, 0⟩, capacity_ := 2 }
      { buffer_ := ⟨2, 0⟩, capacity_ := 3 }).1 = { buffer_ := ⟨2, 0⟩, capacity_ := 3 } ∧
    (RawMemory.move_assign { buffer_ := ⟨1, 0⟩, capacity_ := 2 }
      { buffer_ := ⟨2, 0⟩, capacity_ := 3 }).2 = { buffer_ := ⟨1, 0⟩, capacity_ := 2 } ∧
    ¬ ((RawMemory.move_assign { buffer_ := ⟨1, 0⟩, capacity_ := 2 }
        { buffer_ := ⟨2, 0⟩, capacity_ := 3 }).2.capacity_ = 0 ∧
      (RawMemory.move_assign { buffer_ := ⟨1, 0⟩, capacity_ := 2 }
        { buffer_ := ⟨2, 0⟩, capacity_ := 3 }).2.buffer_ = nullptr) := by
  decide

/-- C17 (amended): the move assignment `target = std::move(source)` of
`RawMemory` exchanges the two objects: the target ends with the source's
former buffer and capacity and the source with the target's former buffer and
capacity, so the source is left empty exactly when the target was empty
before; move construction leaves the source with capacity 0 and a null
buffer, and gives the new object the source's buffer and capacity. -/
theorem rawmemory_move_assign_exchanges (target source : RawMemory) :
    (RawMemory.move_assign target source).1 = source ∧
    (RawMemory.move_assign target source).2 = target ∧
    (((RawMemory.move_assign target source).2.capacity_ = 0 ∧
        (RawMemory.move_assign target source).2.buffer_ = nullptr) ↔
      (target.capacity_ = 0 ∧ target.buffer_ = nullptr)) ∧
    (RawMemory.move_ctor source).1 = source ∧
    (RawMemory.move_ctor source).2.capacity_ = 0 ∧
    (RawMemory.move_ctor source).2.buffer_ = nullptr :=
  ⟨rfl, rfl, Iff.rfl, rfl, rfl, rfl⟩

/-- C18: after the `n >= 1` calls `PushBack(y)` for the values `y` of a list
`ys` of length `n` on a default-constructed `Vector`, `Size()` is `n` and
`Capacity()` is the smallest power of two that is at least `n`: it is
`2 ^ Nat.clog 2 n`, it is at least `n`, and every power of two that is at least
`n` is at least the capacity. -/
theorem pushes_give_power_of_two_capacity [Element T] (h : Heap T) (hf : h.fault = false)
    (ys : List T) (hn : 1 ≤ ys.length) :
    (Vector.pushAll h Vector.ctor_default ys).2.Size = ys.length ∧
    (Vector.pushAll h Vector.ctor_default ys).2.Capacity = 2 ^ Nat.clog 2 ys.length ∧
    ys.length ≤ (Vector.pushAll h Vector.ctor_default ys).2.Capacity ∧
    (∀ j, ys.length ≤ 2 ^ j → (Vector.pushAll h Vector.ctor_default ys).2.Capacity ≤ 2 ^ j) := by
  obtain ⟨hsz0, hle0, hI⟩ := Vector.pushAll_doubling ys h Vector.ctor_default (le_refl _)
    (Or.inl ⟨rfl, rfl⟩)
  have hsz : (Vector.pushAll h Vector.ctor_default ys).2.size_ = ys.length := by
    rw [hsz0]; simp [Vector.ctor_default]
  have hle : ys.length ≤ (Vector.pushAll h Vector.ctor_default ys).2.data_.capacity_ := by
    rw [← hsz]; exact hle0
  simp only [Vector.Size, Vector.Capacity, RawMemory.Capacity]
  rcases hI with ⟨e, _⟩ | ⟨k, hk1, hk2⟩
  · subst e; simp at hn
  · rw [hsz] at hk2
    have hmin : ∀ j, ys.length ≤ 2 ^ j → 2 ^ k ≤ 2 ^ j := by
      intro j hj
      by_contra hlt
      have hjk : j < k := by
        by_contra hge
        exact hlt (Nat.pow_le_pow_right (by norm_num) (by omega))
      have h1 : 2 ^ (j + 1) ≤ 2 ^ k := Nat.pow_le_pow_right (by norm_num) (by omega)
      rw [pow_succ] at h1
      omega
    have hclog : Nat.clog 2 ys.length = k := by
      apply le_antisymm
      · exact (Nat.le_pow_iff_clog_le (by norm_num)).mp (by omega)
      · have h2 := hmin (Nat.clog 2 ys.length) (Nat.le_pow_clog (by norm_num) _)
        exact (Nat.pow_le_pow_iff_right (by norm_num)).mp h2
    refine ⟨hsz, by rw [hclog, hk1], hle, ?_⟩
    intro j hj
    rw [hk1]
    exact hmin j hj

theorem pushes_give_power_of_two_capacity_witness :
    1 ≤ [10, 20, 30, 40, 50].length ∧
    (Vector.pushAll (Heap.empty Nat) Vector.ctor_default [10, 20, 30, 40, 50]).2.Size = 5 ∧
    (Vector.pushAll (Heap.empty Nat) Vector.ctor_default [10, 20, 30, 40, 50]).2.Capacity = 8 :=
  ⟨by decide,
    (pushes_give_power_of_two_capacity (Heap.empty Nat) rfl [10, 20, 30, 40, 50]
      (by decide)).1,
    by decide⟩

/-- C19: on a well-formed array holding `xs`, for every index `k` with
`k <= Size()` and every value `x`, calling `Erase` on the position returned by
`Insert(begin() + k, x)` leaves an array with the old size and a capacity that
is at least the old one, and `Erase` returns the position `begin() + k` of the
resulting array.  When the array is one a 64-bit machine can hold (its elements
occupy fewer than `2^63` bytes, so that the byte count of the doubled capacity
does not wrap), the two calls run without undefined behaviour and the resulting
array is well formed and holds exactly `xs` again. -/
theorem erase_undoes_insert [Element T] (h : Heap T) (v : Vector) (xs : List T)
    (hM : Models h v xs) (k : Nat) (hk : k ≤ v.Size) (x : T) :
    (Fits T (2 * v.Size) →
      Models
        (Vector.Erase (Vector.Insert h v (v.begin.add k) x).1
          (Vector.Insert h v (v.begin.add k) x).2.1 (Vector.Insert h v (v.begin.add k) x).2.2).1
        (Vector.Erase (Vector.Insert h v (v.begin.add k) x).1
          (Vector.Insert h v (v.begin.add k) x).2.1
          (Vector.Insert h v (v.begin.add k) x).2.2).2.1
        xs ∧
      Vector.toList
        (Vector.Erase (Vector.Insert h v (v.begin.add k) x).1
          (Vector.Insert h v (v.begin.add k) x).2.1 (Vector.Insert h v (v.begin.add k) x).2.2).1
        (Vector.Erase (Vector.Insert h v (v.begin.add k) x).1
          (Vector.Insert h v (v.begin.add k) x).2.1
          (Vector.Insert h v (v.begin.add k) x).2.2).2.1
        = Vector.toList h v) ∧
    (Vector.Erase (Vector.Insert h v (v.begin.add k) x).1
      (Vector.Insert h v (v.begin.add k) x).2.1
      (Vector.Insert h v (v.begin.add k) x).2.2).2.1.Size = v.Size ∧
    v.Capacity ≤ (Vector.Erase (Vector.Insert h v (v.begin.add k) x).1
      (Vector.Insert h v (v.begin.add k) x).2.1
      (Vector.Insert h v (v.begin.add k) x).2.2).2.1.Capacity ∧
    (Vector.Erase (Vector.Insert h v (v.begin.add k) x).1
      (Vector.Insert h v (v.begin.add k) x).2.1 (Vector.Insert h v (v.begin.add k) x).2.2).2.2 =
      (Vector.Erase (Vector.Insert h v (v.begin.add k) x).1
        (Vector.Insert h v (v.begin.add k) x).2.1
        (Vector.Insert h v (v.begin.add k) x).2.2).2.1.begin.add k := by
  simp only [Vector.Size] at hk
  have hsz : v.size_ = xs.length := hM.2.1
  have hle : v.size_ ≤ v.Capacity := by
    have := hM.2.2.1
    simp only [Vector.Capacity, RawMemory.Capacity]; omega
  have hI : Vector.Insert h v (v.begin.add k) x = Vector.Emplace h v (v.begin.add k) x := rfl
  obtain ⟨f1, f2, f3⟩ := Vector.Emplace_fields h v k x hk hle
  rw [hI]
  refine ⟨fun hfit => ?_, ?_, ?_, ?_⟩
  · simp only [Vector.Size] at hfit
    obtain ⟨a, b, c⟩ := Vector.Emplace_spec hM k hk x hfit
    rw [b]
    have hsz2 : (Vector.Emplace h v (v.begin.add k) x).2.1.size_ = xs.length + 1 := by
      rw [a.2.1]; simp; omega
    obtain ⟨e1, e2, e3, _⟩ := Vector.Erase_spec a k (by omega)
    rw [take_insert_drop_erase xs x k (by omega)] at e1
    exact ⟨e1, by rw [e1.toList, hM.toList]⟩
  · rw [(Vector.Erase_fields _ _ _).1]
    simp only [Vector.Size]
    rw [f1]
    omega
  · rw [(Vector.Erase_fields _ _ _).1]
    show v.data_.capacity_ ≤ (Vector.Emplace h v (v.begin.add k) x).2.1.data_.capacity_
    rw [f2]
    by_cases hc : v.Capacity = v.size_
    · rw [if_pos hc]
      simp only [Vector.Capacity, RawMemory.Capacity] at hc
      dsimp only
      split_ifs <;> omega
    · rw [if_neg hc]
  · rw [(Vector.Erase_fields _ _ _).2, (Vector.Erase_fields _ _ _).1, f3]
    simp [Vector.begin, RawMemory.GetAddress, Ptr.diff, Ptr.add]

theorem erase_undoes_insert_witness :
    Models sample1234.1 sample1234.2 [1, 2, 3, 4] ∧
    Vector.toList
      (Vector.Erase (Vector.Insert sample1234.1 sample1234.2 (sample1234.2.begin.add 2) 9).1
        (Vector.Insert sample1234.1 sample1234.2 (sample1234.2.begin.add 2) 9).2.1
        (Vector.Insert sample1234.1 sample1234.2 (sample1234.2.begin.add 2) 9).2.2).1
      (Vector.Erase (Vector.Insert sample1234.1 sample1234.2 (sample1234.2.begin.add 2) 9).1
        (Vector.Insert sample1234.1 sample1234.2 (sample1234.2.begin.add 2) 9).2.1
        (Vector.Insert sample1234.1 sample1234.2 (sample1234.2.begin.add 2) 9).2.2).2.1
      = [some 1, some 2, some 3, some 4] ∧
    (Vector.Erase (Vector.Insert sample1234.1 sample1234.2 (sample1234.2.begin.add 2) 9).1
      (Vector.Insert sample1234.1 sample1234.2 (sample1234.2.begin.add 2) 9).2.1
      (Vector.Insert sample1234.1 sample1234.2 (sample1234.2.begin.add 2) 9).2.2).2.1.Capacity
      = 8 :=
  ⟨by decide,
    ((erase_undoes_insert sample1234.1 sample1234.2 [1, 2, 3, 4] (by decide) 2 (by decide) 9).1
      (by decide)).2,
    by decide⟩

/-- C20 (defect in `Resize`): on `[1, 3, 4]` (size 3, capacity 4) the call
`Resize(3)` with the current size finds `size_ + new_size > Capacity()`, calls
`Reserve(6)` and reallocates: the size and the elements are unchanged, but the
capacity becomes 6, the buffer is a new block and a block was allocated. -/
theorem resize_to_current_size_reallocates :
    Models sample134.1 sample134.2 [1, 3, 4] ∧
    sample134.2.Size = 3 ∧ sample134.2.Capacity = 4 ∧
    (Vector.Resize sample134.1 sample134.2 3).2.Size = 3 ∧
    Vector.toList (Vector.Resize sample134.1 sample134.2 3).1
      (Vector.Resize sample134.1 sample134.2 3).2 = [some 1, some 3, some 4] ∧
    (Vector.Resize sample134.1 sample134.2 3).2.Capacity = 6 ∧
    (Vector.Resize sample134.1 sample134.2 3).2.data_.buffer_ ≠ sample134.2.data_.buffer_ ∧
    (Vector.Resize sample134.1 sample134.2 3).1.next = sample134.1.next + 1 ∧
    (Vector.Resize sample134.1 sample134.2 3).1.fault = false := by
  decide

/-- C11: for two well-formed arrays `a` (holding `xs`) and `b` (holding `ys`)
that are distinct objects with distinct buffers, the copy assignment `a = b`
leaves `a` with size `b.Size()`; the capacity of `a` becomes `b.Size()` when
`b.Size()` exceeded it and otherwise `a` keeps its capacity and its buffer.
When `b` is an array a 64-bit machine can hold (the byte count of its elements
is a `size_t` value), the assignment runs without undefined behaviour and
leaves `a` well formed and holding `ys` (the same elements) and `b` still
holding `ys`.  This covers the three branches (copy and swap, assign a prefix
and destroy the tail, assign the live elements and copy-construct the rest);
the self-assignment `a = a` changes nothing. -/
theorem copy_assignment_copies [Element T] (h : Heap T) (a b : Vector) (xs ys : List T)
    (ha : Models h a xs) (hb : Models h b ys)
    (hdis : a.data_.capacity_ ≠ 0 → b.data_.capacity_ ≠ 0 →
      a.data_.buffer_.block ≠ b.data_.buffer_.block) :
    (Fits T b.Size →
      Models (Vector.assign_copy h a (Operand.other b)).1
        (Vector.assign_copy h a (Operand.other b)).2 ys ∧
      Vector.toList (Vector.assign_copy h a (Operand.other b)).1
        (Vector.assign_copy h a (Operand.other b)).2 = Vector.toList h b ∧
      Models (Vector.assign_copy h a (Operand.other b)).1 b ys ∧
      Vector.toList (Vector.assign_copy h a (Operand.other b)).1 b = Vector.toList h b) ∧
    (Vector.assign_copy h a (Operand.other b)).2.Size = b.Size ∧
    (b.Size > a.Capacity → (Vector.assign_copy h a (Operand.other b)).2.Capacity = b.Size) ∧
    (b.Size ≤ a.Capacity →
      (Vector.assign_copy h a (Operand.other b)).2.Capacity = a.Capacity ∧
      (Vector.assign_copy h a (Operand.other b)).2.data_.buffer_ = a.data_.buffer_) ∧
    Vector.assign_copy h a Operand.self = (h, a) := by
  simp only [Vector.Size]
  obtain ⟨f1, f2, f3⟩ := Vector.assign_copy_fields h a b
  refine ⟨fun hfit => ?_, f1, f2, ?_, rfl⟩
  · have main : Models (Vector.assign_copy h a (Operand.other b)).1
          (Vector.assign_copy h a (Operand.other b)).2 ys ∧
        Models (Vector.assign_copy h a (Operand.other b)).1 b ys := by
      by_cases hgt : b.size_ > a.Capacity
      · exact ⟨(Vector.assign_copy_realloc ha hb hdis hgt hfit).1,
          (Vector.assign_copy_realloc ha hb hdis hgt hfit).2.1⟩
      · exact ⟨(Vector.assign_copy_inplace ha hb hdis (by omega)).1,
          (Vector.assign_copy_inplace ha hb hdis (by omega)).2.1⟩
    exact ⟨main.1, by rw [main.1.toList, hb.toList], main.2, by rw [main.2.toList, hb.toList]⟩
  · intro hle
    have := f3 hle
    constructor
    · show ((Vector.assign_copy h a (Operand.other b)).2.data_).capacity_ = a.data_.capacity_
      rw [this]
    · rw [this]

theorem copy_assignment_copies_witness :
    Models sampleTwo.1 sampleTwo.2 [0] ∧ Models sampleTwo.1 sample134.2 [1, 3, 4] ∧
    Vector.toList (Vector.assign_copy sampleTwo.1 sampleTwo.2 (Operand.other sample134.2)).1
      (Vector.assign_copy sampleTwo.1 sampleTwo.2 (Operand.other sample134.2)).2
      = [some 1, some 3, some 4] ∧
    (Vector.assign_copy sampleTwo.1 sampleTwo.2 (Operand.other sample134.2)).2.Capacity = 3 ∧
    Vector.toList (Vector.assign_copy sampleTwo.1 sample134.2 (Operand.other sampleTwo.2)).1
      (Vector.assign_copy sampleTwo.1 sample134.2 (Operand.other sampleTwo.2)).2
      = [some 0] ∧
    (Vector.assign_copy sampleTwo.1 sample134.2 (Operand.other sampleTwo.2)).2.Capacity = 4 :=
  ⟨by decide, by decide,
    ((copy_assignment_copies sampleTwo.1 sampleTwo.2 sample134.2 [0] [1, 3, 4]
      (by decide) (by decide) (by decide)).1 (by decide)).2.1,
    (copy_assignment_copies sampleTwo.1 sampleTwo.2 sample134.2 [0] [1, 3, 4]
      (by decide) (by decide) (by decide)).2.2.1 (by decide),
    ((copy_assignment_copies sampleTwo.1 sample134.2 sampleTwo.2 [1, 3, 4] [0]
      (by decide) (by decide) (by decide)).1 (by decide)).2.1,
    ((copy_assignment_copies sampleTwo.1 sample134.2 sampleTwo.2 [1, 3, 4] [0]
      (by decide) (by decide) (by decide)).2.2.2.1 (by decide)).1⟩

/-- C16 (defect in `EmplaceBack`): on the full array `[Tracked 1, Tracked 2]`
(size 2, capacity 2), whose transfer copies, `EmplaceBack(Tracked 3)` with the
new element constructed and the first copy of an existing element throwing
(countdown 1) ends by an exception with the new block (block 3) released while
its slot 2 still holds the new element: `EmplaceBack` has no handler that
destroys it, so it is never destroyed.  The old elements are intact.  The same
failure in `Emplace` at index 1 (its handler calls `destroy_at`) leaves no live
object in the released block. -/
theorem emplace_back_failure_leaks_new_element :
    Models sampleTracked.1 sampleTracked.2 [⟨1⟩, ⟨2⟩] ∧
    sampleTracked.2.Size = 2 ∧ sampleTracked.2.Capacity = 2 ∧
    sampleTracked.1.next = 2 ∧
    (Vector.EmplaceBack_try (some 1) sampleTracked.1 sampleTracked.2 ⟨3⟩).1.thrown = true ∧
    (Vector.EmplaceBack_try (some 1) sampleTracked.1 sampleTracked.2 ⟨3⟩).1.heap.extent 3 = none ∧
    (Vector.EmplaceBack_try (some 1) sampleTracked.1 sampleTracked.2 ⟨3⟩).1.heap.slot 3 2
      = some ⟨3⟩ ∧
    Models (Vector.EmplaceBack_try (some 1) sampleTracked.1 sampleTracked.2 ⟨3⟩).1.heap
      sampleTracked.2 [⟨1⟩, ⟨2⟩] ∧
    (Vector.Emplace_try (some 1) sampleTracked.1 sampleTracked.2 (sampleTracked.2.begin.add 1)
      ⟨3⟩).1.thrown = true ∧
    (Vector.Emplace_try (some 1) sampleTracked.1 sampleTracked.2 (sampleTracked.2.begin.add 1)
      ⟨3⟩).1.heap.extent 3 = none ∧
    (∀ i, i < 4 →
      (Vector.Emplace_try (some 1) sampleTracked.1 sampleTracked.2 (sampleTracked.2.begin.add 1)
        ⟨3⟩).1.heap.slot 3 i = none) := by
  decide

end AdvancedVector
